import Mathlib

/-!
A verification development for the MLSys graph-index core.

The C++ sources (`src/problem_json.h`, `src/graph.cpp`, `src/main.cpp`,
`src/problem_json.cpp`) are shallowly embedded below: `std::string` is
modelled as `List Char`, `std::size_t` as `Nat` (with explicit wraparound
`% 2^64` at the single place the code decrements a `size_t` that drives
control flow), `int64_t` as `Int` guarded by the range checks the code
performs, fallible constructors and queries as `Except String`.
-/

namespace MLSys

/-- Decimal digit character, as produced by the standard stream insertion
operators the C++ code uses to print `size_t` / `int64_t` values. -/
def digitChar (d : Nat) : Char := Char.ofNat (48 + d)

/-- Decimal rendering of a natural number (fuel-driven; `natChars` supplies
enough fuel). Mirrors the decimal text `operator<<` emits for a `size_t`. -/
def natCharsAux : Nat → Nat → List Char
  | 0, _ => []
  | fuel + 1, n => if n < 10 then [digitChar n] else natCharsAux fuel (n / 10) ++ [digitChar (n % 10)]

/-- Decimal text of a `size_t` value. -/
def natChars (n : Nat) : List Char := natCharsAux (n + 1) n

/-- Decimal text of an `int64_t` value (sign plus digits). -/
def intChars (i : Int) : List Char := if i < 0 then '-' :: natChars i.natAbs else natChars i.toNat

/-- Characters of a Lean string literal (used to transcribe the C++ string
literals into the `List Char` model). -/
def chars (s : String) : List Char := s.toList

/-- String form of `natChars`, for building the C++ error messages. -/
def natStr (n : Nat) : String := String.mk (natChars n)

/-- `struct Tensor` from `problem_json.h`: two `int64_t` extents. -/
structure Tensor where
  width : Int
  height : Int
deriving DecidableEq

/-- `struct Op` from `problem_json.h`. -/
structure Op where
  type : List Char
  inputs : List Nat
  outputs : List Nat
  base_cost : Int
deriving DecidableEq

/-- `struct Problem` from `problem_json.h`. -/
structure Problem where
  tensors : List Tensor
  ops : List Op
  fast_memory_capacity : Int
  slow_memory_bandwidth : Int
  native_width : Int
  native_height : Int
deriving DecidableEq

/-- The operation stored at index `i` (the C++ code only reads `ops[i]` for
in-range `i`; out-of-range reads return a junk operation). -/
def opAt (p : Problem) (i : Nat) : Op := p.ops.getD i ⟨[], [], [], 0⟩

/-- `std::unique` on a sorted run: drop adjacent duplicates. -/
def uniqueAdjacent : List Nat → List Nat
  | [] => []
  | [a] => [a]
  | a :: b :: rest => if a = b then uniqueAdjacent (b :: rest) else a :: uniqueAdjacent (b :: rest)

/-- `SortAndUnique` from `graph.cpp`: `std::sort` then erase/`std::unique`.
`std::sort` is modelled by a concrete sorting algorithm; on `Nat` keys all
correct sorts agree, so the choice (a structurally recursive insertion sort)
is immaterial. -/
def sortAndUnique (values : List Nat) : List Nat :=
  uniqueAdjacent (values.insertionSort (· ≤ ·))

/-- Error text of `Graph::CheckTensorId`. -/
def outOfRangeMsg (t : Nat) : String := "Tensor id out of range: " ++ natStr t

/-- Error text of the multiple-producer check in `Graph::Graph`. -/
def multiProducerMsg (t prev cur : Nat) : String :=
  "Tensor[" ++ natStr t ++ "] has multiple producers: Op[" ++ natStr prev ++ "] and Op[" ++
    natStr cur ++ "]."

/-- Record `opId` as one more user of tensor `t`
(`tensor_user_ops_[tensor_id].push_back(op_id)`). -/
def bumpUsers (users : Nat → List Nat) (t opId : Nat) : Nat → List Nat :=
  fun u => if u = t then users u ++ [opId] else users u

/-- Input loop of `Graph::Graph` for one operation: range-check every input
tensor id and append the operation to that tensor's user list. -/
def processInputs (numT opId : Nat) (users : Nat → List Nat) :
    List Nat → Except String (Nat → List Nat)
  | [] => .ok users
  | t :: rest =>
    if numT ≤ t then .error (outOfRangeMsg t)
    else processInputs numT opId (bumpUsers users t opId) rest

/-- `tensor_producer_op_[tensor_id] = op_id` (functional update). -/
def setProducer (producer : Nat → Option Nat) (t opId : Nat) : Nat → Option Nat :=
  fun u => if u = t then some opId else producer u

/-- Output loop of `Graph::Graph` for one operation: range-check every output
tensor id, fail if a different operation already produced it, else record the
current operation as producer. -/
def processOutputs (numT opId : Nat) (producer : Nat → Option Nat) :
    List Nat → Except String (Nat → Option Nat)
  | [] => .ok producer
  | t :: rest =>
    if numT ≤ t then .error (outOfRangeMsg t)
    else
      match producer t with
      | some prev =>
        if prev ≠ opId then .error (multiProducerMsg t prev opId)
        else processOutputs numT opId (setProducer producer t opId) rest
      | none => processOutputs numT opId (setProducer producer t opId) rest

/-- First pass of `Graph::Graph`: walk the operations in ascending index
order, recording users and producers, failing on the first violation. -/
def buildAdjacency (numT : Nat) :
    List Op → Nat → (Nat → Option Nat) → (Nat → List Nat) →
    Except String ((Nat → Option Nat) × (Nat → List Nat))
  | [], _, producer, users => .ok (producer, users)
  | op :: rest, opId, producer, users =>
    match processInputs numT opId users op.inputs with
    | .error e => .error e
    | .ok users' =>
      match processOutputs numT opId producer op.outputs with
      | .error e => .error e
      | .ok producer' => buildAdjacency numT rest (opId + 1) producer' users'

/-- Predecessor derivation in `Graph::Graph`: the producers of the
operation's input tensors, skipping missing producers and self-loops, then
`SortAndUnique`. -/
def predecessorsOf (producer : Nat → Option Nat) (opId : Nat) (inputs : List Nat) : List Nat :=
  sortAndUnique (inputs.filterMap fun t =>
    match producer t with
    | some q => if q ≠ opId then some q else none
    | none => none)

/-- `op_successors_[predecessor].push_back(op_id)` over one predecessor
list. -/
def addSuccessors (opId : Nat) : List Nat → (Nat → List Nat) → (Nat → List Nat)
  | [], succs => succs
  | q :: rest, succs =>
    addSuccessors opId rest (fun u => if u = q then succs u ++ [opId] else succs u)

/-- The successor-accumulation loop of `Graph::Graph`, over the given
operation ids in order. -/
def buildSuccessorsAux (predsF : Nat → List Nat) : List Nat → (Nat → List Nat) → (Nat → List Nat)
  | [], succs => succs
  | opId :: rest, succs => buildSuccessorsAux predsF rest (addSuccessors opId (predsF opId) succs)

/-- Raw (pre-`SortAndUnique`) successor lists: invert the predecessor
relation over all operation ids in ascending order. -/
def buildSuccessors (predsF : Nat → List Nat) (numOps : Nat) : Nat → List Nat :=
  buildSuccessorsAux predsF (List.range numOps) (fun _ => [])

/-- The Graph Index built by `Graph::Graph`: the cached producer map, user
sets, predecessor/successor sets and boundary tensor lists, plus the borrowed
problem description. -/
structure Graph where
  problem : Problem
  producerOp : Nat → Option Nat
  userOps : Nat → List Nat
  predecessorOps : Nat → List Nat
  successorOps : Nat → List Nat
  graphInputTensors : List Nat
  graphOutputTensors : List Nat

/-- `Graph::NumTensors`. -/
def Graph.numTensors (g : Graph) : Nat := g.problem.tensors.length

/-- `Graph.NumOps`. -/
def Graph.numOps (g : Graph) : Nat := g.problem.ops.length

/-- `Graph::IsGraphInputTensor`: no producer. -/
def isGraphInputTensor (g : Graph) (t : Nat) : Bool := (g.producerOp t).isNone

/-- `Graph::IsGraphOutputTensor`: empty user list. -/
def isGraphOutputTensor (g : Graph) (t : Nat) : Bool := (g.userOps t).isEmpty

/-- Predecessor list of operation `o` given the finished producer map
(the per-operation derivation loop of `Graph::Graph`; empty out of
range). -/
def predsFromProducer (p : Problem) (producer : Nat → Option Nat) (o : Nat) : List Nat :=
  match p.ops[o]? with
  | some op => predecessorsOf producer o op.inputs
  | none => []

/-- `Graph::Graph(const Problem&)`: the whole constructor. On success every
derived index is fully built; on failure only the error escapes. -/
def buildGraph (p : Problem) : Except String Graph :=
  match buildAdjacency p.tensors.length p.ops 0 (fun _ => none) (fun _ => []) with
  | .error e => .error e
  | .ok r =>
    .ok
      { problem := p
        producerOp := r.1
        userOps := fun t => sortAndUnique (r.2 t)
        predecessorOps := predsFromProducer p r.1
        successorOps := fun q =>
          sortAndUnique (buildSuccessors (predsFromProducer p r.1) p.ops.length q)
        graphInputTensors :=
          (List.range p.tensors.length).filter (fun t => (r.1 t).isNone)
        graphOutputTensors :=
          (List.range p.tensors.length).filter (fun t => (sortAndUnique (r.2 t)).isEmpty) }

/-- `2^64`, the modulus of `std::size_t` arithmetic on the target platform. -/
def u64 : Nat := 2 ^ 64

/-- `--indegree[successor]` on a `size_t`: decrement with wraparound. -/
def decSize (x : Nat) : Nat := (x + (u64 - 1)) % u64

/-- Body of the `while (!ready.empty())` iteration of
`Graph::TopologicalOrder` for one popped operation: decrement each
successor's in-degree in order, appending any successor that reaches zero to
the back of the ready queue. -/
def kahnStep (g : Graph) (indeg : Nat → Nat) (queue : List Nat) (opId : Nat) :
    (Nat → Nat) × List Nat :=
  (g.successorOps opId).foldl
    (fun st s =>
      ((fun u => if u = s then decSize (st.1 s) else st.1 u),
        if decSize (st.1 s) = 0 then st.2 ++ [s] else st.2))
    (indeg, queue)

/-- The `while (!ready.empty())` loop of `Graph::TopologicalOrder`. The fuel
argument only bounds the number of iterations; every operation is enqueued at
most once (proved below), so the `numOps + 1` budget supplied by
`topologicalOrder` is never exhausted and the loop always ends by emptying
the queue, exactly as the C++ loop does. -/
def kahnLoop (g : Graph) : Nat → (Nat → Nat) → List Nat → List Nat → List Nat
  | 0, _, _, order => order
  | _ + 1, _, [], order => order
  | fuel + 1, indeg, opId :: rest, order =>
    let st := kahnStep g indeg rest opId
    kahnLoop g fuel st.1 st.2 (order ++ [opId])

/-- Error text of the cycle check in `Graph::TopologicalOrder`. -/
def notADagMsg : String := "Op graph is not a DAG: topological sort failed."

/-- `Graph::TopologicalOrder`: Kahn's algorithm; in-degrees are the
predecessor-set sizes, the ready queue is seeded with all zero-in-degree
operations in ascending index order, and an incomplete order means a cycle. -/
def topologicalOrder (g : Graph) : Except String (List Nat) :=
  let indeg0 : Nat → Nat := fun o => (g.predecessorOps o).length
  let ready0 : List Nat := (List.range g.numOps).filter (fun o => indeg0 o == 0)
  let order := kahnLoop g (g.numOps + 1) indeg0 ready0 []
  if order.length = g.numOps then .ok order else .error notADagMsg

/-- `EscapeDotString` from `graph.cpp`, per character: backslash, double
quote and newline are emitted with a preceding backslash (newline as
backslash + `n`), all other characters unchanged. -/
def escapeDotChar (c : Char) : List Char :=
  if c = '\\' then ['\\', '\\']
  else if c = '"' then ['\\', '"']
  else if c = '\n' then ['\\', 'n']
  else [c]

/-- `EscapeDotString` over a whole string. -/
def escapeDotString (raw : List Char) : List Char := (raw.map escapeDotChar).flatten

/-- The two-character `\n` separator (`"\\n"` in the C++ source) that
`BuildDot` inserts between annotation lines of a label. -/
def bsn : List Char := ['\\', 'n']

/-- Tensor fill color chosen by `BuildDot`. -/
def tensorFill (isIn isOut : Bool) : List Char :=
  if isIn && isOut then chars "#fde68a"
  else if isIn then chars "#bbf7d0"
  else if isOut then chars "#bfdbfe"
  else chars "#f3f4f6"

/-- Tensor border color chosen by `BuildDot`. -/
def tensorBorder (isIn isOut : Bool) : List Char :=
  if isIn && isOut then chars "#b45309"
  else if isIn then chars "#15803d"
  else if isOut then chars "#1d4ed8"
  else chars "#6b7280"

/-- The tensor at index `t` (in-range in every use by `BuildDot`). -/
def tensorAt (p : Problem) (t : Nat) : Tensor := p.tensors.getD t ⟨0, 0⟩

/-- The raw (pre-escaping) tensor label `BuildDot` assembles: index, then
`height x width`, then the boundary roles, separated by two-character `\n`
sequences. -/
def tensorLabelRaw (g : Graph) (t : Nat) : List Char :=
  chars "Tensor[" ++ natChars t ++ chars "]" ++ bsn ++ intChars (tensorAt g.problem t).height ++
    chars "x" ++ intChars (tensorAt g.problem t).width ++
    (if isGraphInputTensor g t then bsn ++ chars "input" else []) ++
    (if isGraphOutputTensor g t then bsn ++ chars "output" else [])

/-- One tensor node statement emitted by `BuildDot`. -/
def tensorNodeLine (g : Graph) (t : Nat) : List Char :=
  chars "  t" ++ natChars t ++ chars " [shape=ellipse, style=filled, fillcolor=\"" ++
    tensorFill (isGraphInputTensor g t) (isGraphOutputTensor g t) ++ chars "\", color=\"" ++
    tensorBorder (isGraphInputTensor g t) (isGraphOutputTensor g t) ++ chars "\", label=\"" ++
    escapeDotString (tensorLabelRaw g t) ++ chars "\"];\n"

/-- The raw (pre-escaping) operation label `BuildDot` assembles: index, type,
cost, predecessor count and successor count, separated by two-character `\n`
sequences. -/
def opLabelRaw (g : Graph) (i : Nat) : List Char :=
  chars "Op[" ++ natChars i ++ chars "]" ++ bsn ++ (opAt g.problem i).type ++ bsn ++
    chars "cost=" ++ intChars (opAt g.problem i).base_cost ++ bsn ++
    chars "preds=" ++ natChars (g.predecessorOps i).length ++ bsn ++
    chars "succs=" ++ natChars (g.successorOps i).length

/-- One operation node statement emitted by `BuildDot`. -/
def opNodeLine (g : Graph) (i : Nat) : List Char :=
  chars "  o" ++ natChars i ++
    chars " [shape=box, style=\"rounded,filled\", fillcolor=\"#fee2e2\", color=\"#991b1b\", label=\"" ++
    escapeDotString (opLabelRaw g i) ++ chars "\"];\n"

/-- The edge statements `BuildDot` emits for one operation: one tensor-to-op
edge per input occurrence, then one op-to-tensor edge per output
occurrence. -/
def edgeLines (g : Graph) (i : Nat) : List Char :=
  ((opAt g.problem i).inputs.map fun t =>
      chars "  t" ++ natChars t ++ chars " -> o" ++ natChars i ++ chars ";\n").flatten ++
  ((opAt g.problem i).outputs.map fun t =>
      chars "  o" ++ natChars i ++ chars " -> t" ++ natChars t ++ chars ";\n").flatten

/-- The fixed preamble `BuildDot` writes. -/
def dotHeader : List Char :=
  chars "digraph MLSysGraph \x7b\n  rankdir=LR;\n  graph [fontname=\"Helvetica\", splines=true, overlap=false];\n  node [fontname=\"Helvetica\", fontsize=10];\n  edge [fontname=\"Helvetica\", fontsize=9];\n\n"

/-- `BuildDot` from `graph.cpp`: preamble, tensor nodes, operation nodes,
edges, closing brace. -/
def buildDot (g : Graph) : List Char :=
  dotHeader ++
    ((List.range g.numTensors).map (tensorNodeLine g)).flatten ++ chars "\n" ++
    ((List.range g.numOps).map (opNodeLine g)).flatten ++ chars "\n" ++
    ((List.range g.numOps).map (edgeLines g)).flatten ++ chars "\x7d\n"

/-- Reader for the label syntax `EscapeDotString` targets: `\\`, `\"` and
`\n` decode to backslash, quote and newline; a bare backslash, bare quote or
raw newline makes the label ill-formed (`none`). Used to state that escaping
produces well-formed labels that decode back to the original text. -/
def unescapeDot : List Char → Option (List Char)
  | [] => some []
  | c :: rest =>
    if c = '\\' then
      match rest with
      | [] => none
      | d :: rest' =>
        if d = '\\' then (unescapeDot rest').map (fun s => '\\' :: s)
        else if d = '"' then (unescapeDot rest').map (fun s => '"' :: s)
        else if d = 'n' then (unescapeDot rest').map (fun s => '\n' :: s)
        else none
    else if c = '"' then none
    else if c = '\n' then none
    else (unescapeDot rest).map (fun s => c :: s)

/-- Left-to-right reading of a label under the DOT escape convention: an
(active) backslash consumes the following character as an escape. The
proposition holds when no active backslash is followed by `n`, i.e. the label
contains no functioning `\n` line-break escape. -/
def noNewlineEscape : List Char → Bool
  | [] => true
  | c :: rest =>
    if c = '\\' then
      match rest with
      | [] => true
      | d :: rest' => d ≠ 'n' && noNewlineEscape rest'
    else noNewlineEscape rest

/-- A parsed JSON document, as produced by the recursive-descent `JsonParser`
in `problem_json.cpp`. Numbers are modelled as exact rationals; for the
integer tokens the reader below accepts, the `double` the C++ parser stores
represents the token value exactly, so the checks in `ToInt64` coincide.
Objects are key/value lists queried only through lookup, matching the
`unordered_map` use. -/
inductive JsonValue where
  | null
  | bool (b : Bool)
  | num (n : ℚ)
  | str (s : List Char)
  | arr (elements : List JsonValue)
  | obj (fields : List (String × JsonValue))

/-- `JsonValue::AsNumber`. -/
def asNumber : JsonValue → Except String ℚ
  | .num n => .ok n
  | _ => .error "JSON type error: expected number."

/-- `JsonValue::AsString`. -/
def asString : JsonValue → Except String (List Char)
  | .str s => .ok s
  | _ => .error "JSON type error: expected string."

/-- `JsonValue::AsArray`. -/
def asArray : JsonValue → Except String (List JsonValue)
  | .arr elements => .ok elements
  | _ => .error "JSON type error: expected array."

/-- `JsonValue::AsObject`. -/
def asObject : JsonValue → Except String (List (String × JsonValue))
  | .obj fields => .ok fields
  | _ => .error "JSON type error: expected object."

/-- `GetRequiredField` from `problem_json.cpp`. -/
def getRequiredField (fields : List (String × JsonValue)) (key : String) :
    Except String JsonValue :=
  match fields.find? (fun kv => kv.1 == key) with
  | some kv => .ok kv.2
  | none => .error ("Missing required field: " ++ key)

/-- `ToInt64` from `problem_json.cpp`: require a number, reject values
outside the `int64_t` range (the upper bound is `2^63`, the `double` nearest
to `INT64_MAX` the C++ code compares against), and reject non-integers (the
truncate-and-compare check succeeds exactly on integral values, i.e. on
rationals with denominator one). -/
def toInt64 (value : JsonValue) (field : String) : Except String Int :=
  match asNumber value with
  | .error e => .error e
  | .ok n =>
    if n < -((2 : ℚ) ^ 63) ∨ ((2 : ℚ) ^ 63) < n then
      .error ("Integer out of range in field: " ++ field)
    else if n.den = 1 then .ok n.num
    else .error ("Expected integer in field: " ++ field)

/-- Element-wise traversal stopping at the first error, as the C++ reader
loops do. -/
def mapE (f : α → Except String β) : List α → Except String (List β)
  | [] => .ok []
  | a :: rest =>
    match f a with
    | .error e => .error e
    | .ok b =>
      match mapE f rest with
      | .error e => .error e
      | .ok bs => .ok (b :: bs)

/-- `ToInt64Array` from `problem_json.cpp`. -/
def toInt64Array (value : JsonValue) (field : String) : Except String (List Int) :=
  match asArray value with
  | .error e => .error e
  | .ok elements => mapE (fun el => toInt64 el field) elements

/-- `ToStringArray` from `problem_json.cpp` (the element type error is
replaced by a field-specific message). -/
def toStringArray (value : JsonValue) (field : String) : Except String (List (List Char)) :=
  match asArray value with
  | .error e => .error e
  | .ok elements =>
    mapE
      (fun el =>
        match asString el with
        | .ok s => Except.ok s
        | .error _ => Except.error ("Expected string in field: " ++ field))
      elements

/-- One row of `ToIndex2DArray`: integers, rejected when negative, then cast
to `size_t`. -/
def toIndexRow (row : JsonValue) (field : String) : Except String (List Nat) :=
  match asArray row with
  | .error e => .error e
  | .ok elements =>
    mapE
      (fun el =>
        match toInt64 el field with
        | .error e => Except.error e
        | .ok idx =>
          if idx < 0 then Except.error ("Negative index in field: " ++ field)
          else Except.ok idx.toNat)
      elements

/-- `ToIndex2DArray` from `problem_json.cpp`. -/
def toIndex2DArray (value : JsonValue) (field : String) : Except String (List (List Nat)) :=
  match asArray value with
  | .error e => .error e
  | .ok outer => mapE (fun row => toIndexRow row field) outer

/-- The tensor-building loop of `ReadProblemFromJson` (runs after the
equal-length check, so the element-wise pairing is total). -/
def zipTensors : List Int → List Int → List Tensor
  | w :: ws, h :: hs => ⟨w, h⟩ :: zipTensors ws hs
  | _, _ => []

/-- The op-building loop of `ReadProblemFromJson` (runs after the
equal-length checks). -/
def zipOps : List (List Char) → List (List Nat) → List (List Nat) → List Int → List Op
  | t :: ts, a :: as_, b :: bs, c :: cs => ⟨t, a, b, c⟩ :: zipOps ts as_ bs cs
  | _, _, _, _ => []

/-- The first in-range violation in a list of referenced tensor ids. -/
def firstBadIndex (numT : Nat) (l : List Nat) : Option Nat :=
  l.find? (fun t => decide (numT ≤ t))

/-- The final validation loops of `ReadProblemFromJson`: every referenced
input then output tensor id of every operation must be in range. -/
def validateIndices (numT : Nat) : Nat → List Op → Except String Unit
  | _, [] => .ok ()
  | opId, op :: rest =>
    match firstBadIndex numT op.inputs with
    | some t =>
      .error ("inputs[" ++ natStr opId ++ "] references invalid tensor id " ++ natStr t)
    | none =>
      match firstBadIndex numT op.outputs with
      | some t =>
        .error ("outputs[" ++ natStr opId ++ "] references invalid tensor id " ++ natStr t)
      | none => validateIndices numT (opId + 1) rest

/-- `ReadProblemFromJson` from `problem_json.cpp`, applied to the parsed
document (file I/O and the text-to-`JsonValue` parser are upstream of every
check modelled here). -/
def readProblemFromJson (root : JsonValue) : Except String Problem :=
  match asObject root with
  | .error e => .error e
  | .ok obj =>
    match getRequiredField obj "widths" with
    | .error e => .error e
    | .ok widthsV =>
      match toInt64Array widthsV "widths" with
      | .error e => .error e
      | .ok widths =>
        match getRequiredField obj "heights" with
        | .error e => .error e
        | .ok heightsV =>
          match toInt64Array heightsV "heights" with
          | .error e => .error e
          | .ok heights =>
            if widths.length ≠ heights.length then
              .error "widths and heights must have identical length."
            else
              match getRequiredField obj "op_types" with
              | .error e => .error e
              | .ok opTypesV =>
                match toStringArray opTypesV "op_types" with
                | .error e => .error e
                | .ok opTypes =>
                  match getRequiredField obj "inputs" with
                  | .error e => .error e
                  | .ok inputsV =>
                    match toIndex2DArray inputsV "inputs" with
                    | .error e => .error e
                    | .ok inputs =>
                      match getRequiredField obj "outputs" with
                      | .error e => .error e
                      | .ok outputsV =>
                        match toIndex2DArray outputsV "outputs" with
                        | .error e => .error e
                        | .ok outputs =>
                          match getRequiredField obj "base_costs" with
                          | .error e => .error e
                          | .ok baseCostsV =>
                            match toInt64Array baseCostsV "base_costs" with
                            | .error e => .error e
                            | .ok baseCosts =>
                              if inputs.length ≠ opTypes.length ∨
                                  outputs.length ≠ opTypes.length ∨
                                  baseCosts.length ≠ opTypes.length then
                                .error "op_types, inputs, outputs, and base_costs must have identical length."
                              else
                                match getRequiredField obj "fast_memory_capacity" with
                                | .error e => .error e
                                | .ok fmcV =>
                                  match toInt64 fmcV "fast_memory_capacity" with
                                  | .error e => .error e
                                  | .ok fmc =>
                                    match getRequiredField obj "slow_memory_bandwidth" with
                                    | .error e => .error e
                                    | .ok smbV =>
                                      match toInt64 smbV "slow_memory_bandwidth" with
                                      | .error e => .error e
                                      | .ok smb =>
                                        match getRequiredField obj "native_granularity" with
                                        | .error e => .error e
                                        | .ok ngV =>
                                          match toInt64Array ngV "native_granularity" with
                                          | .error e => .error e
                                          | .ok ng =>
                                            if ng.length = 2 then
                                              let problem : Problem :=
                                                { tensors := zipTensors widths heights
                                                  ops := zipOps opTypes inputs outputs baseCosts
                                                  fast_memory_capacity := fmc
                                                  slow_memory_bandwidth := smb
                                                  native_width := ng.getD 0 0
                                                  native_height := ng.getD 1 0 }
                                              match validateIndices problem.tensors.length 0
                                                  problem.ops with
                                              | .error e => .error e
                                              | .ok _ => .ok problem
                                            else
                                              .error "native_granularity must have exactly 2 entries."

/-- The `produced` counters of `WriteDot` in `main.cpp`: how many times any
operation lists tensor `t` among its outputs. -/
def producedCount (p : Problem) (t : Nat) : Nat :=
  (p.ops.map (fun op => op.outputs.count t)).sum

/-- The `consumed` counters of `WriteDot` in `main.cpp`. -/
def consumedCount (p : Problem) (t : Nat) : Nat :=
  (p.ops.map (fun op => op.inputs.count t)).sum

/-- `WriteDot`'s graph-input classification (`produced[t] == 0`). -/
def wdIsGraphInput (p : Problem) (t : Nat) : Bool := producedCount p t == 0

/-- `WriteDot`'s graph-output classification (`consumed[t] == 0`). -/
def wdIsGraphOutput (p : Problem) (t : Nat) : Bool := consumedCount p t == 0

/-- Referential integrity of a problem description: every tensor index in
any operation's input or output list is a valid index into the tensor
list. -/
def InRange (p : Problem) : Prop :=
  ∀ op ∈ p.ops, (∀ t ∈ op.inputs, t < p.tensors.length) ∧ ∀ t ∈ op.outputs, t < p.tensors.length

/-- Single-producer invariant of a problem description: no tensor is listed
as an output by two distinct operations (an operation repeating a tensor in
its own output list is allowed). -/
def SingleProducer (p : Problem) : Prop :=
  ∀ i, i < p.ops.length → ∀ j, j < p.ops.length → i ≠ j →
    ∀ t, t ∈ (opAt p i).outputs → t ∈ (opAt p j).outputs → False

/-- The direct-predecessor relation of a built graph: `q` must run before
`o`. -/
def precedes (g : Graph) (q o : Nat) : Prop := q ∈ g.predecessorOps o

/-- Acyclicity of the predecessor relation: no operation transitively
precedes itself. -/
def Acyclic (g : Graph) : Prop := ∀ o, ¬ Relation.TransGen (precedes g) o o

/-- A junk graph used as the default of the total accessor `gOf`. -/
def defaultGraph : Graph :=
  ⟨⟨[], [], 0, 0, 0, 0⟩, fun _ => none, fun _ => [], fun _ => [], fun _ => [], [], []⟩

/-- Total accessor for the graph built from a problem (meaningful only when
construction succeeds). -/
def gOf (p : Problem) : Graph :=
  match buildGraph p with
  | .ok g => g
  | .error _ => defaultGraph

/-- Concrete problem: one `matmul` operation reading tensor 0 and writing
tensor 1. -/
def prOne : Problem := ⟨[⟨3, 2⟩, ⟨4, 5⟩], [⟨chars "matmul", [0], [1], 7⟩], 0, 0, 0, 0⟩

/-- Concrete problem: a three-operation chain through tensors 0-3. -/
def prChain : Problem :=
  ⟨[⟨1, 1⟩, ⟨1, 1⟩, ⟨1, 1⟩, ⟨1, 1⟩],
    [⟨chars "a", [0], [1], 1⟩, ⟨chars "b", [1], [2], 1⟩, ⟨chars "c", [2], [3], 1⟩], 0, 0, 0, 0⟩

/-- Concrete problem: two operations that both list tensor 0 as an output. -/
def prConflict : Problem :=
  ⟨[⟨1, 1⟩], [⟨chars "a", [], [0], 0⟩, ⟨chars "b", [], [0], 0⟩], 0, 0, 0, 0⟩

/-- Concrete problem: operations 0 and 1 each consume the tensor the other
produces (a two-cycle). -/
def prCycle : Problem :=
  ⟨[⟨1, 1⟩, ⟨1, 1⟩], [⟨chars "a", [0], [1], 0⟩, ⟨chars "b", [1], [0], 0⟩], 0, 0, 0, 0⟩

/-- Concrete problem: one operation listing tensor 0 twice in its own output
list. -/
def prSelfDup : Problem := ⟨[⟨1, 1⟩], [⟨chars "a", [], [0, 0], 0⟩], 0, 0, 0, 0⟩

/-- Concrete problem: one operation plus an isolated tensor 2 (neither
produced nor consumed). -/
def prIsolated : Problem :=
  ⟨[⟨1, 1⟩, ⟨1, 1⟩, ⟨9, 9⟩], [⟨chars "a", [0], [1], 0⟩], 0, 0, 0, 0⟩

/-- Concrete problem: the operation type contains a raw newline character. -/
def prNewlineType : Problem := ⟨[⟨1, 1⟩], [⟨chars "a\nb", [], [0], 0⟩], 0, 0, 0, 0⟩

/-- A parsed JSON document whose single tensor has the given width: all
fields `ReadProblemFromJson` requires, with one tensor and no operations. -/
def docWithWidth (w : ℚ) : JsonValue :=
  .obj [("widths", .arr [.num w]), ("heights", .arr [.num 2]),
    ("op_types", .arr []), ("inputs", .arr []), ("outputs", .arr []), ("base_costs", .arr []),
    ("fast_memory_capacity", .num 0), ("slow_memory_bandwidth", .num 0),
    ("native_granularity", .arr [.num 1, .num 1])]

/-- The problem `ReadProblemFromJson` builds from `docWithWidth`. -/
def problemWithWidth (w : Int) : Problem := ⟨[⟨w, 2⟩], [], 0, 0, 1, 1⟩

/-- Structural facts about a built graph's adjacency lists that the
topological-sort proof relies on: sizes fit in a `size_t`, predecessor lists
are duplicate-free, in range and self-loop-free (and empty out of range), and
successor lists are duplicate-free and the exact inverse of the predecessor
relation. -/
def KahnWF (g : Graph) (M : Nat) : Prop :=
  M < u64 ∧ (∀ o, (g.predecessorOps o).Nodup) ∧
    (∀ o q, q ∈ g.predecessorOps o → q < M ∧ q ≠ o) ∧
    (∀ o, M ≤ o → g.predecessorOps o = []) ∧
    (∀ q, (g.successorOps q).Nodup) ∧
    ∀ q o, o ∈ g.successorOps q ↔ o < M ∧ q ∈ g.predecessorOps o

/-- Loop invariant of the embedded Kahn's algorithm: the emitted order and
the ready queue are duplicate-free, in range and disjoint; the queue holds
exactly the unemitted operations whose predecessors were all emitted; every
in-degree counts the not-yet-emitted predecessors; and every emitted
operation was emitted after all of its predecessors. -/
def KahnInv (g : Graph) (M : Nat) (indeg : Nat → Nat) (queue order : List Nat) : Prop :=
  order.Nodup ∧ queue.Nodup ∧ (∀ x ∈ order, x < M) ∧ (∀ x ∈ queue, x < M) ∧
    (∀ x ∈ queue, x ∉ order) ∧
    (∀ o, o < M → (o ∈ queue ↔ o ∉ order ∧ ∀ q ∈ g.predecessorOps o, q ∈ order)) ∧
    (∀ o, indeg o = ((g.predecessorOps o).filter (fun q => decide (q ∉ order))).length) ∧
    ∀ k : Fin order.length, ∀ q ∈ g.predecessorOps (order.get k), q ∈ order.take k.val

/-- Output list of the operation at position `j` (empty when out of
range). -/
def outputsAt (ops : List Op) (j : Nat) : List Nat := (ops.getD j ⟨[], [], [], 0⟩).outputs

/-- Input list of the operation at position `j` (empty when out of
range). -/
def inputsAt (ops : List Op) (j : Nat) : List Nat := (ops.getD j ⟨[], [], [], 0⟩).inputs

/-- Conflict-freedom of the remaining operations relative to the producer
map accumulated so far: replayed exactly as the construction loop updates
it. -/
def NoConf (P : Nat → Option Nat) (k : Nat) : List Op → Prop
  | [] => True
  | op :: rest =>
    (∀ t ∈ op.outputs, P t = none ∨ P t = some k) ∧
      NoConf (fun u => if u ∈ op.outputs then some k else P u) (k + 1) rest

theorem mem_uniqueAdjacent : ∀ (l : List Nat) (x : Nat), x ∈ uniqueAdjacent l ↔ x ∈ l
  | [], x => by simp [uniqueAdjacent]
  | [a], x => by simp [uniqueAdjacent]
  | a :: b :: rest, x => by
    by_cases h : a = b
    · subst h
      have he : uniqueAdjacent (a :: a :: rest) = uniqueAdjacent (a :: rest) := by
        simp [uniqueAdjacent]
      rw [he, mem_uniqueAdjacent (a :: rest) x, List.mem_cons, List.mem_cons, List.mem_cons]
      tauto
    · simp only [uniqueAdjacent, if_neg h, List.mem_cons, mem_uniqueAdjacent (b :: rest) x]

theorem sorted_uniqueAdjacent :
    ∀ l : List Nat, l.Sorted (· ≤ ·) → (uniqueAdjacent l).Sorted (· < ·)
  | [], _ => by simp [uniqueAdjacent]
  | [a], _ => by simp [uniqueAdjacent]
  | a :: b :: rest, h => by
    rw [List.sorted_cons] at h
    by_cases hab : a = b
    · simpa [uniqueAdjacent, hab] using sorted_uniqueAdjacent (b :: rest) h.2
    · have hrec := sorted_uniqueAdjacent (b :: rest) h.2
      have hab' : a < b := lt_of_le_of_ne (h.1 b (List.mem_cons_self b rest)) hab
      simp only [uniqueAdjacent, if_neg hab]
      rw [List.sorted_cons]
      refine ⟨?_, hrec⟩
      intro x hx
      have hxmem : x ∈ b :: rest := (mem_uniqueAdjacent _ _).1 hx
      rcases List.mem_cons.1 hxmem with hxb | hxr
      · exact hxb ▸ hab'
      · exact lt_of_lt_of_le hab' ((List.sorted_cons.1 h.2).1 x hxr)

theorem sorted_lt_sortAndUnique (l : List Nat) : (sortAndUnique l).Sorted (· < ·) :=
  sorted_uniqueAdjacent _ (List.sorted_insertionSort _ l)

theorem nodup_sortAndUnique (l : List Nat) : (sortAndUnique l).Nodup :=
  (sorted_lt_sortAndUnique l).nodup

theorem mem_sortAndUnique {x : Nat} {l : List Nat} : x ∈ sortAndUnique l ↔ x ∈ l := by
  rw [sortAndUnique, mem_uniqueAdjacent]
  exact List.mem_insertionSort _

theorem sortAndUnique_eq_nil {l : List Nat} : sortAndUnique l = [] ↔ l = [] := by
  constructor
  · intro h
    rcases l with _ | ⟨x, l'⟩
    · rfl
    · have hx : x ∈ sortAndUnique (x :: l') := mem_sortAndUnique.2 (List.mem_cons_self x l')
      rw [h] at hx
      simp at hx
  · intro h
    subst h
    rfl

theorem outputsAt_lt {ops : List Op} {j v : Nat} (h : v ∈ outputsAt ops j) : j < ops.length := by
  by_contra hge
  rw [outputsAt, List.getD_eq_default _ _ (by omega)] at h
  simp at h

theorem inputsAt_lt {ops : List Op} {j v : Nat} (h : v ∈ inputsAt ops j) : j < ops.length := by
  by_contra hge
  rw [inputsAt, List.getD_eq_default _ _ (by omega)] at h
  simp at h

theorem processInputs_ok_iff (numT opId : Nat) :
    ∀ (l : List Nat) (users : Nat → List Nat),
      (∃ u, processInputs numT opId users l = .ok u) ↔ ∀ t ∈ l, t < numT
  | [], users => by simp [processInputs]
  | t :: rest, users => by
    by_cases h : numT ≤ t
    · simp only [processInputs, if_pos h, List.forall_mem_cons]
      constructor
      · rintro ⟨u, hu⟩
        simp at hu
      · rintro ⟨h1, -⟩
        omega
    · have hlt : t < numT := by omega
      simp only [processInputs, if_neg h, List.forall_mem_cons,
        processInputs_ok_iff numT opId rest (bumpUsers users t opId)]
      tauto

theorem processInputs_users (numT opId : Nat) :
    ∀ (l : List Nat) (users u : Nat → List Nat),
      processInputs numT opId users l = .ok u →
      ∀ v x, x ∈ u v ↔ x ∈ users v ∨ (x = opId ∧ v ∈ l)
  | [], users, u, h => by
    simp only [processInputs, Except.ok.injEq] at h
    subst h
    simp
  | t :: rest, users, u, h => by
    by_cases hle : numT ≤ t
    · simp [processInputs, if_pos hle] at h
    · simp only [processInputs, if_neg hle] at h
      intro v x
      rw [processInputs_users numT opId rest _ u h v x]
      by_cases hv : v = t
      · subst hv
        simp [bumpUsers, List.mem_cons]
        tauto
      · simp [bumpUsers, hv, List.mem_cons]

theorem setProducer_cond (P : Nat → Option Nat) (t opId u : Nat) :
    (setProducer P t opId u = none ∨ setProducer P t opId u = some opId) ↔
      (u = t ∨ (P u = none ∨ P u = some opId)) := by
  by_cases hut : u = t <;> simp [setProducer, hut]

theorem processOutputs_ok_iff (numT opId : Nat) :
    ∀ (l : List Nat) (P : Nat → Option Nat),
      (∃ P', processOutputs numT opId P l = .ok P') ↔
        ∀ t ∈ l, t < numT ∧ (P t = none ∨ P t = some opId)
  | [], P => by simp [processOutputs]
  | t :: rest, P => by
    by_cases h : numT ≤ t
    · simp only [processOutputs, if_pos h, List.forall_mem_cons]
      constructor
      · rintro ⟨P', hP⟩
        simp at hP
      · rintro ⟨⟨h1, -⟩, -⟩
        omega
    · have hlt : t < numT := by omega
      have hcore : (∃ P', processOutputs numT opId (setProducer P t opId) rest = .ok P') →
          (P t = none ∨ P t = some opId) →
          ((∃ P', processOutputs numT opId (setProducer P t opId) rest = .ok P') ↔
            ∀ u ∈ t :: rest, u < numT ∧ (P u = none ∨ P u = some opId)) := by
        intro _ hP
        rw [processOutputs_ok_iff numT opId rest (setProducer P t opId), List.forall_mem_cons]
        constructor
        · intro hall
          refine ⟨⟨hlt, hP⟩, ?_⟩
          intro u hu
          rcases hall u hu with ⟨h1, h2⟩
          rcases (setProducer_cond P t opId u).1 h2 with hut | hcond
          · exact ⟨h1, hut ▸ hP⟩
          · exact ⟨h1, hcond⟩
        · rintro ⟨-, hall⟩
          intro u hu
          rcases hall u hu with ⟨h1, h2⟩
          exact ⟨h1, (setProducer_cond P t opId u).2 (Or.inr h2)⟩
      cases hPt : P t with
      | none =>
        simp only [processOutputs, if_neg h, hPt]
        rw [processOutputs_ok_iff numT opId rest (setProducer P t opId), List.forall_mem_cons]
        constructor
        · intro hall
          refine ⟨⟨hlt, Or.inl hPt⟩, ?_⟩
          intro u hu
          rcases hall u hu with ⟨h1, h2⟩
          rcases (setProducer_cond P t opId u).1 h2 with hut | hcond
          · exact ⟨h1, hut ▸ Or.inl hPt⟩
          · exact ⟨h1, hcond⟩
        · rintro ⟨-, hall⟩
          intro u hu
          rcases hall u hu with ⟨h1, h2⟩
          exact ⟨h1, (setProducer_cond P t opId u).2 (Or.inr h2)⟩
      | some prev =>
        by_cases hprev : prev = opId
        · rw [hprev] at hPt
          simp only [processOutputs, if_neg h, hPt]
          rw [if_neg (show ¬opId ≠ opId from fun hc => hc rfl)]
          rw [processOutputs_ok_iff numT opId rest (setProducer P t opId), List.forall_mem_cons]
          constructor
          · intro hall
            refine ⟨⟨hlt, Or.inr hPt⟩, ?_⟩
            intro u hu
            rcases hall u hu with ⟨h1, h2⟩
            rcases (setProducer_cond P t opId u).1 h2 with hut | hcond
            · exact ⟨h1, hut ▸ Or.inr hPt⟩
            · exact ⟨h1, hcond⟩
          · rintro ⟨-, hall⟩
            intro u hu
            rcases hall u hu with ⟨h1, h2⟩
            exact ⟨h1, (setProducer_cond P t opId u).2 (Or.inr h2)⟩
        · simp only [processOutputs, if_neg h, hPt]
          rw [if_pos hprev]
          constructor
          · rintro ⟨P', hP⟩
            simp at hP
          · intro hall
            rcases hall t (List.mem_cons_self t rest) with ⟨-, hcond⟩
            rw [hPt] at hcond
            rcases hcond with h1 | h1
            · simp at h1
            · simp only [Option.some.injEq] at h1
              exact absurd h1 hprev

theorem processOutputs_eq (numT opId : Nat) :
    ∀ (l : List Nat) (P P' : Nat → Option Nat),
      processOutputs numT opId P l = .ok P' →
      ∀ v, P' v = if v ∈ l then some opId else P v
  | [], P, P', h => by
    simp only [processOutputs, Except.ok.injEq] at h
    subst h
    intro v
    simp
  | t :: rest, P, P', h => by
    by_cases hle : numT ≤ t
    · simp [processOutputs, if_pos hle] at h
    · simp only [processOutputs, if_neg hle] at h
      cases hPt : P t with
      | none =>
        rw [hPt] at h
        intro v
        rw [processOutputs_eq numT opId rest _ P' h v]
        by_cases hv : v = t
        · subst hv
          simp [setProducer, List.mem_cons]
        · simp [setProducer, hv, List.mem_cons]
      | some prev =>
        by_cases hprev : prev = opId
        · rw [hprev] at hPt
          simp only [hPt] at h
          rw [if_neg (show ¬opId ≠ opId from fun hc => hc rfl)] at h
          intro v
          rw [processOutputs_eq numT opId rest _ P' h v]
          by_cases hv : v = t
          · subst hv
            simp [setProducer, List.mem_cons]
          · simp [setProducer, hv, List.mem_cons]
        · simp only [hPt] at h
          rw [if_pos hprev] at h
          simp at h

theorem processOutputs_error (numT opId : Nat) :
    ∀ (l : List Nat) (P : Nat → Option Nat),
      (∀ t ∈ l, t < numT) →
      ¬(∀ t ∈ l, P t = none ∨ P t = some opId) →
      ∃ t prev, t ∈ l ∧ P t = some prev ∧ prev ≠ opId ∧
        processOutputs numT opId P l = .error (multiProducerMsg t prev opId)
  | [], P, _, hconf => absurd (by simp) hconf
  | t :: rest, P, hrange, hconf => by
    have hlt : t < numT := hrange t (List.mem_cons_self t rest)
    have hle : ¬numT ≤ t := by omega
    cases hPt : P t with
    | none =>
      have hconf' : ¬∀ u ∈ rest, setProducer P t opId u = none ∨
          setProducer P t opId u = some opId := by
        intro hall
        apply hconf
        intro u hu
        rcases List.mem_cons.1 hu with hut | hur
        · exact hut ▸ Or.inl hPt
        · rcases (setProducer_cond P t opId u).1 (hall u hur) with hut | hcond
          · exact hut ▸ Or.inl hPt
          · exact hcond
      obtain ⟨t', prev', ht', hP', hne', herr⟩ :=
        processOutputs_error numT opId rest (setProducer P t opId)
          (fun u hu => hrange u (List.mem_cons_of_mem t hu)) hconf'
      have htne : t' ≠ t := by
        intro hc
        rw [hc] at hP'
        simp [setProducer] at hP'
        exact hne' hP'.symm
      refine ⟨t', prev', List.mem_cons_of_mem t ht', ?_, hne', ?_⟩
      · rw [show P t' = setProducer P t opId t' from by simp [setProducer, htne]]
        exact hP'
      · simp only [processOutputs, if_neg hle, hPt]
        exact herr
    | some prev =>
      by_cases hprev : prev = opId
      · rw [hprev] at hPt
        have hconf' : ¬∀ u ∈ rest, setProducer P t opId u = none ∨
            setProducer P t opId u = some opId := by
          intro hall
          apply hconf
          intro u hu
          rcases List.mem_cons.1 hu with hut | hur
          · exact hut ▸ Or.inr hPt
          · rcases (setProducer_cond P t opId u).1 (hall u hur) with hut | hcond
            · exact hut ▸ Or.inr hPt
            · exact hcond
        obtain ⟨t', prev', ht', hP', hne', herr⟩ :=
          processOutputs_error numT opId rest (setProducer P t opId)
            (fun u hu => hrange u (List.mem_cons_of_mem t hu)) hconf'
        have htne : t' ≠ t := by
          intro hc
          rw [hc] at hP'
          simp [setProducer] at hP'
          exact hne' hP'.symm
        refine ⟨t', prev', List.mem_cons_of_mem t ht', ?_, hne', ?_⟩
        · rw [show P t' = setProducer P t opId t' from by simp [setProducer, htne]]
          exact hP'
        · simp only [processOutputs, if_neg hle, hPt]
          rw [if_neg (show ¬opId ≠ opId from fun hc => hc rfl)]
          exact herr
      · refine ⟨t, prev, List.mem_cons_self t rest, hPt, hprev, ?_⟩
        simp only [processOutputs, if_neg hle, hPt]
        rw [if_pos hprev]

theorem outputsAt_nil (j : Nat) : outputsAt [] j = [] := rfl

theorem outputsAt_cons_zero (op : Op) (rest : List Op) : outputsAt (op :: rest) 0 = op.outputs :=
  rfl

theorem outputsAt_cons_succ (op : Op) (rest : List Op) (j : Nat) :
    outputsAt (op :: rest) (j + 1) = outputsAt rest j := rfl

theorem inputsAt_nil (j : Nat) : inputsAt [] j = [] := rfl

theorem inputsAt_cons_zero (op : Op) (rest : List Op) : inputsAt (op :: rest) 0 = op.inputs := rfl

theorem inputsAt_cons_succ (op : Op) (rest : List Op) (j : Nat) :
    inputsAt (op :: rest) (j + 1) = inputsAt rest j := rfl

theorem buildAdjacency_ok_iff (numT : Nat) :
    ∀ (ops : List Op) (k : Nat) (P : Nat → Option Nat) (U : Nat → List Nat),
      (∃ r, buildAdjacency numT ops k P U = .ok r) ↔
        ((∀ op ∈ ops, (∀ t ∈ op.inputs, t < numT) ∧ ∀ t ∈ op.outputs, t < numT) ∧
          NoConf P k ops)
  | [], k, P, U => by simp [buildAdjacency, NoConf]
  | op :: rest, k, P, U => by
    cases hI : processInputs numT k U op.inputs with
    | error e =>
      simp only [buildAdjacency, hI]
      constructor
      · rintro ⟨r, hr⟩
        simp at hr
      · rintro ⟨hrange, -⟩
        obtain ⟨u, hu⟩ := (processInputs_ok_iff numT k op.inputs U).2
          (hrange op (List.mem_cons_self op rest)).1
        rw [hI] at hu
        simp at hu
    | ok U' =>
      cases hO : processOutputs numT k P op.outputs with
      | error e =>
        simp only [buildAdjacency, hI, hO]
        constructor
        · rintro ⟨r, hr⟩
          simp at hr
        · rintro ⟨hrange, hconf⟩
          have hconf' : (∀ t ∈ op.outputs, P t = none ∨ P t = some k) ∧
              NoConf (fun u => if u ∈ op.outputs then some k else P u) (k + 1) rest := by
            simpa [NoConf] using hconf
          obtain ⟨P', hP'⟩ := (processOutputs_ok_iff numT k op.outputs P).2
            (fun t ht => ⟨(hrange op (List.mem_cons_self op rest)).2 t ht, hconf'.1 t ht⟩)
          rw [hO] at hP'
          simp at hP'
      | ok P' =>
        simp only [buildAdjacency, hI, hO]
        rw [buildAdjacency_ok_iff numT rest (k + 1) P' U']
        have hPfun : P' = fun u => if u ∈ op.outputs then some k else P u :=
          funext fun v => processOutputs_eq numT k op.outputs P P' hO v
        have hIok := (processInputs_ok_iff numT k op.inputs U).1 ⟨U', hI⟩
        have hOok := (processOutputs_ok_iff numT k op.outputs P).1 ⟨P', hO⟩
        simp only [NoConf, List.forall_mem_cons]
        constructor
        · rintro ⟨hr, hc⟩
          exact ⟨⟨⟨hIok, fun t ht => (hOok t ht).1⟩, hr⟩,
            ⟨fun t ht => (hOok t ht).2, hPfun ▸ hc⟩⟩
        · rintro ⟨⟨-, hr⟩, -, hc2⟩
          exact ⟨hr, hPfun ▸ hc2⟩

theorem buildAdjacency_users (numT : Nat) :
    ∀ (ops : List Op) (k : Nat) (P : Nat → Option Nat) (U : Nat → List Nat)
      (r : (Nat → Option Nat) × (Nat → List Nat)),
      buildAdjacency numT ops k P U = .ok r →
      ∀ v x, x ∈ r.2 v ↔ x ∈ U v ∨ ∃ j, x = k + j ∧ v ∈ inputsAt ops j
  | [], k, P, U, r, h => by
    simp only [buildAdjacency, Except.ok.injEq] at h
    subst h
    intro v x
    simp [inputsAt_nil]
  | op :: rest, k, P, U, r, h => by
    cases hI : processInputs numT k U op.inputs with
    | error e =>
      simp [buildAdjacency, hI] at h
    | ok U' =>
      cases hO : processOutputs numT k P op.outputs with
      | error e =>
        simp only [buildAdjacency, hI, hO] at h
        simp at h
      | ok P' =>
        simp only [buildAdjacency, hI, hO] at h
        intro v x
        rw [buildAdjacency_users numT rest (k + 1) P' U' r h v x,
          processInputs_users numT k op.inputs U U' hI v x]
        constructor
        · rintro ((hU | ⟨hx, hv⟩) | ⟨j, hx, hv⟩)
          · exact Or.inl hU
          · exact Or.inr ⟨0, by omega, by rwa [inputsAt_cons_zero]⟩
          · exact Or.inr ⟨j + 1, by omega, by rwa [inputsAt_cons_succ]⟩
        · rintro (hU | ⟨j, hx, hv⟩)
          · exact Or.inl (Or.inl hU)
          · cases j with
            | zero =>
              rw [inputsAt_cons_zero] at hv
              exact Or.inl (Or.inr ⟨by omega, hv⟩)
            | succ j' =>
              rw [inputsAt_cons_succ] at hv
              exact Or.inr ⟨j', by omega, hv⟩

theorem buildAdjacency_producer (numT : Nat) :
    ∀ (ops : List Op) (k : Nat) (P : Nat → Option Nat) (U : Nat → List Nat)
      (r : (Nat → Option Nat) × (Nat → List Nat)),
      buildAdjacency numT ops k P U = .ok r →
      ∀ v i, r.1 v = some i ↔
        ((∃ j, i = k + j ∧ v ∈ outputsAt ops j ∧ ∀ j', j < j' → v ∉ outputsAt ops j') ∨
          (P v = some i ∧ ∀ j, v ∉ outputsAt ops j))
  | [], k, P, U, r, h => by
    simp only [buildAdjacency, Except.ok.injEq] at h
    subst h
    intro v i
    simp [outputsAt_nil]
  | op :: rest, k, P, U, r, h => by
    cases hI : processInputs numT k U op.inputs with
    | error e =>
      simp [buildAdjacency, hI] at h
    | ok U' =>
      cases hO : processOutputs numT k P op.outputs with
      | error e =>
        simp only [buildAdjacency, hI, hO] at h
        simp at h
      | ok P' =>
        simp only [buildAdjacency, hI, hO] at h
        intro v i
        rw [buildAdjacency_producer numT rest (k + 1) P' U' r h v i]
        have hP' : ∀ u, P' u = if u ∈ op.outputs then some k else P u :=
          processOutputs_eq numT k op.outputs P P' hO
        constructor
        · rintro (⟨j, hi, hv, hlater⟩ | ⟨hPv, hnone⟩)
          · refine Or.inl ⟨j + 1, by omega, by rwa [outputsAt_cons_succ], ?_⟩
            intro j' hj' hmem
            cases j' with
            | zero => omega
            | succ j'' =>
              rw [outputsAt_cons_succ] at hmem
              exact hlater j'' (by omega) hmem
          · by_cases hv : v ∈ op.outputs
            · rw [hP' v, if_pos hv] at hPv
              refine Or.inl ⟨0, by simp at hPv; omega, by rwa [outputsAt_cons_zero], ?_⟩
              intro j' hj' hmem
              cases j' with
              | zero => omega
              | succ j'' =>
                rw [outputsAt_cons_succ] at hmem
                exact hnone j'' hmem
            · rw [hP' v, if_neg hv] at hPv
              refine Or.inr ⟨hPv, ?_⟩
              intro j hmem
              cases j with
              | zero =>
                rw [outputsAt_cons_zero] at hmem
                exact hv hmem
              | succ j' =>
                rw [outputsAt_cons_succ] at hmem
                exact hnone j' hmem
        · rintro (⟨j, hi, hv, hlater⟩ | ⟨hPv, hnone⟩)
          · cases j with
            | zero =>
              rw [outputsAt_cons_zero] at hv
              refine Or.inr ⟨by rw [hP' v, if_pos hv]; simp; omega, ?_⟩
              intro j' hmem
              have := hlater (j' + 1) (by omega)
              rw [outputsAt_cons_succ] at this
              exact this hmem
            | succ j'' =>
              refine Or.inl ⟨j'', by omega, ?_, ?_⟩
              · rwa [outputsAt_cons_succ] at hv
              · intro j' hj' hmem
                have := hlater (j' + 1) (by omega)
                rw [outputsAt_cons_succ] at this
                exact this hmem
          · have hv0 : v ∉ op.outputs := by
              intro hc
              have := hnone 0
              rw [outputsAt_cons_zero] at this
              exact this hc
            refine Or.inr ⟨by rw [hP' v, if_neg hv0]; exact hPv, ?_⟩
            intro j' hmem
            have := hnone (j' + 1)
            rw [outputsAt_cons_succ] at this
            exact this hmem

theorem noConf_iff :
    ∀ (ops : List Op) (k : Nat) (P : Nat → Option Nat),
      NoConf P k ops ↔
        ∀ j, ∀ t ∈ outputsAt ops j,
          (∀ q, P t = some q → q = k + j) ∧ ∀ i, i < j → t ∉ outputsAt ops i
  | [], k, P => by simp [NoConf, outputsAt_nil]
  | op :: rest, k, P => by
    simp only [NoConf]
    rw [noConf_iff rest (k + 1) (fun u => if u ∈ op.outputs then some k else P u)]
    constructor
    · rintro ⟨hhead, hrest⟩ j t ht
      cases j with
      | zero =>
        rw [outputsAt_cons_zero] at ht
        refine ⟨?_, fun i hi => by omega⟩
        intro q hq
        rcases hhead t ht with h1 | h1
        · rw [hq] at h1
          simp at h1
        · rw [hq] at h1
          simp only [Option.some.injEq] at h1
          omega
      | succ j' =>
        rw [outputsAt_cons_succ] at ht
        obtain ⟨hq', hbefore⟩ := hrest j' t ht
        constructor
        · intro q hq
          by_cases hto : t ∈ op.outputs
          · have := hq' k (by rw [if_pos hto])
            omega
          · have := hq' q (by rw [if_neg hto]; exact hq)
            omega
        · intro i hi
          cases i with
          | zero =>
            rw [outputsAt_cons_zero]
            intro hto
            have := hq' k (by rw [if_pos hto])
            omega
          | succ i' =>
            rw [outputsAt_cons_succ]
            exact hbefore i' (by omega)
    · intro hall
      constructor
      · intro t ht
        have h1 := (hall 0 t (by rwa [outputsAt_cons_zero])).1
        cases hPt : P t with
        | none => exact Or.inl rfl
        | some q =>
          have hq := h1 q hPt
          exact Or.inr (by rw [hq, Nat.add_zero])
      · intro j' t ht
        have h2 := hall (j' + 1) t (by rwa [outputsAt_cons_succ])
        constructor
        · intro q hq
          by_cases hto : t ∈ op.outputs
          · have := h2.2 0 (by omega)
            rw [outputsAt_cons_zero] at this
            exact absurd hto this
          · rw [if_neg hto] at hq
            have := h2.1 q hq
            omega
        · intro i hi
          have := h2.2 (i + 1) (by omega)
          rwa [outputsAt_cons_succ] at this

theorem opAt_outputs (p : Problem) (i : Nat) : (opAt p i).outputs = outputsAt p.ops i := rfl

theorem opAt_inputs (p : Problem) (i : Nat) : (opAt p i).inputs = inputsAt p.ops i := rfl

theorem singleProducer_iff_noConf (p : Problem) :
    SingleProducer p ↔ NoConf (fun _ => none) 0 p.ops := by
  rw [noConf_iff p.ops 0 (fun _ => none)]
  constructor
  · intro hsp j t ht
    refine ⟨fun q hq => by simp at hq, ?_⟩
    intro i hi hmem
    exact hsp i (outputsAt_lt hmem) j (outputsAt_lt ht) (by omega) t hmem ht
  · intro hnc i hi j hj hne t hmi hmj
    rw [opAt_outputs] at hmi hmj
    rcases Nat.lt_or_ge i j with hij | hij
    · exact (hnc j t hmj).2 i hij hmi
    · exact (hnc i t hmi).2 j (by omega) hmj

theorem buildAdjacency_error (numT : Nat) :
    ∀ (ops : List Op) (k : Nat) (P : Nat → Option Nat) (U : Nat → List Nat),
      (∀ op ∈ ops, (∀ t ∈ op.inputs, t < numT) ∧ ∀ t ∈ op.outputs, t < numT) →
      ¬NoConf P k ops →
      ∃ t prev cur, prev ≠ cur ∧
        (P t = some prev ∨ ∃ j, prev = k + j ∧ t ∈ outputsAt ops j) ∧
        (∃ j, cur = k + j ∧ t ∈ outputsAt ops j) ∧
        buildAdjacency numT ops k P U = .error (multiProducerMsg t prev cur)
  | [], k, P, U, _, hconf => absurd (by simp [NoConf]) hconf
  | op :: rest, k, P, U, hrange, hconf => by
    obtain ⟨U', hI⟩ := (processInputs_ok_iff numT k op.inputs U).2
      (hrange op (List.mem_cons_self op rest)).1
    by_cases hhead : ∀ t ∈ op.outputs, P t = none ∨ P t = some k
    · have hconf' : ¬NoConf (fun u => if u ∈ op.outputs then some k else P u) (k + 1) rest := by
        intro hc
        exact hconf (by simp only [NoConf]; exact ⟨hhead, hc⟩)
      obtain ⟨P', hO⟩ := (processOutputs_ok_iff numT k op.outputs P).2
        (fun t ht => ⟨(hrange op (List.mem_cons_self op rest)).2 t ht, hhead t ht⟩)
      have hP' : ∀ u, P' u = if u ∈ op.outputs then some k else P u :=
        processOutputs_eq numT k op.outputs P P' hO
      have hP'fun : P' = fun u => if u ∈ op.outputs then some k else P u := funext hP'
      obtain ⟨t, prev, cur, hne, hprev, hcur, herr⟩ :=
        buildAdjacency_error numT rest (k + 1) P' U'
          (fun o ho => hrange o (List.mem_cons_of_mem op ho)) (hP'fun ▸ hconf')
      refine ⟨t, prev, cur, hne, ?_, ?_, ?_⟩
      · rcases hprev with hPv | ⟨j, hj, hmem⟩
        · rw [hP' t] at hPv
          by_cases hto : t ∈ op.outputs
          · rw [if_pos hto] at hPv
            simp only [Option.some.injEq] at hPv
            exact Or.inr ⟨0, by omega, by rwa [outputsAt_cons_zero]⟩
          · rw [if_neg hto] at hPv
            exact Or.inl hPv
        · exact Or.inr ⟨j + 1, by omega, by rwa [outputsAt_cons_succ]⟩
      · obtain ⟨j, hj, hmem⟩ := hcur
        exact ⟨j + 1, by omega, by rwa [outputsAt_cons_succ]⟩
      · simp only [buildAdjacency, hI, hO]
        exact herr
    · obtain ⟨t, prev, ht, hPt, hne, herr⟩ :=
        processOutputs_error numT k op.outputs P (hrange op (List.mem_cons_self op rest)).2
          hhead
      refine ⟨t, prev, k, hne, Or.inl hPt, ⟨0, by omega, by rwa [outputsAt_cons_zero]⟩, ?_⟩
      simp only [buildAdjacency, hI, herr]

theorem mem_addSuccessors (opId : Nat) :
    ∀ (preds : List Nat) (succs : Nat → List Nat) (u x : Nat),
      x ∈ addSuccessors opId preds succs u ↔ x ∈ succs u ∨ (x = opId ∧ u ∈ preds)
  | [], succs, u, x => by simp [addSuccessors]
  | q :: rest, succs, u, x => by
    simp only [addSuccessors]
    rw [mem_addSuccessors opId rest _ u x]
    by_cases hu : u = q
    · subst hu
      simp [List.mem_cons]
      tauto
    · simp [hu, List.mem_cons]

theorem mem_buildSuccessorsAux (predsF : Nat → List Nat) :
    ∀ (l : List Nat) (succs : Nat → List Nat) (u x : Nat),
      x ∈ buildSuccessorsAux predsF l succs u ↔ x ∈ succs u ∨ (x ∈ l ∧ u ∈ predsF x)
  | [], succs, u, x => by simp [buildSuccessorsAux]
  | opId :: rest, succs, u, x => by
    simp only [buildSuccessorsAux]
    rw [mem_buildSuccessorsAux predsF rest _ u x, mem_addSuccessors opId (predsF opId) succs u x]
    constructor
    · rintro ((hs | ⟨hx, hu⟩) | ⟨hx, hu⟩)
      · exact Or.inl hs
      · exact Or.inr ⟨by simp [hx], hx ▸ hu⟩
      · exact Or.inr ⟨List.mem_cons_of_mem opId hx, hu⟩
    · rintro (hs | ⟨hx, hu⟩)
      · exact Or.inl (Or.inl hs)
      · rcases List.mem_cons.1 hx with hx0 | hxr
        · exact Or.inl (Or.inr ⟨hx0, by rw [← hx0]; exact hu⟩)
        · exact Or.inr ⟨hxr, hu⟩

theorem mem_buildSuccessors (predsF : Nat → List Nat) (numOps u x : Nat) :
    x ∈ buildSuccessors predsF numOps u ↔ x < numOps ∧ u ∈ predsF x := by
  rw [buildSuccessors, mem_buildSuccessorsAux predsF (List.range numOps) _ u x]
  simp [List.mem_range]

theorem buildGraph_ok_elim {p : Problem} {g : Graph} (hb : buildGraph p = .ok g) :
    ∃ r, buildAdjacency p.tensors.length p.ops 0 (fun _ => none) (fun _ => []) = .ok r ∧
      g.problem = p ∧ g.producerOp = r.1 ∧
      g.userOps = (fun t => sortAndUnique (r.2 t)) ∧
      g.predecessorOps = predsFromProducer p r.1 ∧
      g.successorOps =
        (fun q => sortAndUnique (buildSuccessors (predsFromProducer p r.1) p.ops.length q)) ∧
      g.graphInputTensors = (List.range p.tensors.length).filter (fun t => (r.1 t).isNone) ∧
      g.graphOutputTensors =
        (List.range p.tensors.length).filter (fun t => (sortAndUnique (r.2 t)).isEmpty) := by
  cases hA : buildAdjacency p.tensors.length p.ops 0 (fun _ => none) (fun _ => []) with
  | error e =>
    simp only [buildGraph, hA] at hb
    simp at hb
  | ok r =>
    simp only [buildGraph, hA, Except.ok.injEq] at hb
    subst hb
    exact ⟨r, rfl, rfl, rfl, rfl, rfl, rfl, rfl, rfl⟩

theorem buildGraph_singleProducer {p : Problem} {g : Graph} (hb : buildGraph p = .ok g) :
    SingleProducer p := by
  obtain ⟨r, hA, -⟩ := buildGraph_ok_elim hb
  have hok := (buildAdjacency_ok_iff p.tensors.length p.ops 0 _ _).1 ⟨r, hA⟩
  exact (singleProducer_iff_noConf p).2 hok.2

theorem producerOp_some_iff {p : Problem} {g : Graph} (hb : buildGraph p = .ok g)
    (v i : Nat) : g.producerOp v = some i ↔ v ∈ outputsAt p.ops i := by
  obtain ⟨r, hA, -, hprod, -⟩ := buildGraph_ok_elim hb
  have hsp := buildGraph_singleProducer hb
  rw [hprod, buildAdjacency_producer p.tensors.length p.ops 0 _ _ r hA v i]
  constructor
  · rintro (⟨j, hi, hv, -⟩ | ⟨habs, -⟩)
    · have : i = j := by omega
      rwa [this]
    · simp at habs
  · intro hv
    refine Or.inl ⟨i, by omega, hv, ?_⟩
    intro j' hj' hmem
    exact hsp i (outputsAt_lt hv) j' (outputsAt_lt hmem) (by omega) v
      (by rwa [opAt_outputs]) (by rwa [opAt_outputs])

theorem producerOp_none_iff {p : Problem} {g : Graph} (hb : buildGraph p = .ok g) (v : Nat) :
    g.producerOp v = none ↔ ∀ j, v ∉ outputsAt p.ops j := by
  constructor
  · intro h j hmem
    have := (producerOp_some_iff hb v j).2 hmem
    rw [h] at this
    simp at this
  · intro hall
    cases hP : g.producerOp v with
    | none => rfl
    | some i => exact absurd ((producerOp_some_iff hb v i).1 hP) (hall i)

theorem producerOp_lt {p : Problem} {g : Graph} (hb : buildGraph p = .ok g) {v i : Nat}
    (h : g.producerOp v = some i) : i < p.ops.length :=
  outputsAt_lt ((producerOp_some_iff hb v i).1 h)

theorem userOps_mem_iff {p : Problem} {g : Graph} (hb : buildGraph p = .ok g) (v x : Nat) :
    x ∈ g.userOps v ↔ v ∈ inputsAt p.ops x := by
  obtain ⟨r, hA, -, -, husers, -⟩ := buildGraph_ok_elim hb
  rw [husers]
  simp only
  rw [mem_sortAndUnique, buildAdjacency_users p.tensors.length p.ops 0 _ _ r hA v x]
  simp

theorem userOps_sorted {p : Problem} {g : Graph} (hb : buildGraph p = .ok g) (v : Nat) :
    (g.userOps v).Sorted (· < ·) := by
  obtain ⟨r, hA, -, -, husers, -⟩ := buildGraph_ok_elim hb
  rw [husers]
  exact sorted_lt_sortAndUnique _

theorem predecessorOps_eq {p : Problem} {g : Graph} (hb : buildGraph p = .ok g) :
    g.predecessorOps = predsFromProducer p g.producerOp := by
  obtain ⟨r, hA, -, hprod, -, hpreds, -⟩ := buildGraph_ok_elim hb
  rw [hpreds, hprod]

theorem predsFromProducer_out {p : Problem} {P : Nat → Option Nat} {o : Nat}
    (ho : p.ops.length ≤ o) : predsFromProducer p P o = [] := by
  rw [predsFromProducer, List.getElem?_eq_none ho]

theorem predsFromProducer_in {p : Problem} {P : Nat → Option Nat} {o : Nat}
    (ho : o < p.ops.length) :
    predsFromProducer p P o = predecessorsOf P o (inputsAt p.ops o) := by
  rw [predsFromProducer, List.getElem?_eq_getElem ho]
  have : inputsAt p.ops o = (p.ops[o]).inputs := by
    rw [inputsAt, List.getD_eq_getElem _ _ ho]
  rw [this]

theorem mem_predecessorsOf {P : Nat → Option Nat} {opId q : Nat} {inputs : List Nat} :
    q ∈ predecessorsOf P opId inputs ↔ q ≠ opId ∧ ∃ t ∈ inputs, P t = some q := by
  rw [predecessorsOf, mem_sortAndUnique, List.mem_filterMap]
  constructor
  · rintro ⟨t, ht, hf⟩
    cases hPt : P t with
    | none =>
      rw [hPt] at hf
      have hf' : (none : Option Nat) = some q := hf
      simp at hf'
    | some q' =>
      rw [hPt] at hf
      have hf' : (if q' ≠ opId then some q' else none) = some q := hf
      by_cases hq' : q' ≠ opId
      · rw [if_pos hq'] at hf'
        simp only [Option.some.injEq] at hf'
        subst hf'
        exact ⟨hq', t, ht, hPt⟩
      · rw [if_neg hq'] at hf'
        simp at hf'
  · rintro ⟨hne, t, ht, hPt⟩
    refine ⟨t, ht, ?_⟩
    simp only [hPt]
    rw [if_pos hne]

theorem predecessorOps_mem_iff {p : Problem} {g : Graph} (hb : buildGraph p = .ok g)
    (o q : Nat) :
    q ∈ g.predecessorOps o ↔ q ≠ o ∧ ∃ t ∈ inputsAt p.ops o, g.producerOp t = some q := by
  rw [predecessorOps_eq hb]
  rcases Nat.lt_or_ge o p.ops.length with ho | ho
  · rw [predsFromProducer_in ho, mem_predecessorsOf]
  · rw [predsFromProducer_out ho]
    have : inputsAt p.ops o = [] := by
      rw [inputsAt, List.getD_eq_default _ _ ho]
    rw [this]
    simp

theorem predecessorOps_sorted {p : Problem} {g : Graph} (hb : buildGraph p = .ok g) (o : Nat) :
    (g.predecessorOps o).Sorted (· < ·) := by
  rw [predecessorOps_eq hb]
  rcases Nat.lt_or_ge o p.ops.length with ho | ho
  · rw [predsFromProducer_in ho, predecessorsOf]
    exact sorted_lt_sortAndUnique _
  · rw [predsFromProducer_out ho]
    simp

theorem predecessorOps_lt {p : Problem} {g : Graph} (hb : buildGraph p = .ok g) {o q : Nat}
    (h : q ∈ g.predecessorOps o) : q < p.ops.length ∧ q ≠ o := by
  rcases (predecessorOps_mem_iff hb o q).1 h with ⟨hne, t, -, hPt⟩
  exact ⟨producerOp_lt hb hPt, hne⟩

theorem predecessorOps_out {p : Problem} {g : Graph} (hb : buildGraph p = .ok g) {o : Nat}
    (ho : p.ops.length ≤ o) : g.predecessorOps o = [] := by
  rw [predecessorOps_eq hb, predsFromProducer_out ho]

theorem successorOps_mem_iff {p : Problem} {g : Graph} (hb : buildGraph p = .ok g)
    (q o : Nat) : o ∈ g.successorOps q ↔ o < p.ops.length ∧ q ∈ g.predecessorOps o := by
  obtain ⟨r, hA, -, hprod, -, hpreds, hsuccs, -⟩ := buildGraph_ok_elim hb
  rw [hsuccs]
  simp only
  rw [mem_sortAndUnique, mem_buildSuccessors, hpreds]

theorem successorOps_sorted {p : Problem} {g : Graph} (hb : buildGraph p = .ok g) (q : Nat) :
    (g.successorOps q).Sorted (· < ·) := by
  obtain ⟨r, hA, -, -, -, -, hsuccs, -⟩ := buildGraph_ok_elim hb
  rw [hsuccs]
  exact sorted_lt_sortAndUnique _

theorem graph_problem_eq {p : Problem} {g : Graph} (hb : buildGraph p = .ok g) :
    g.problem = p :=
  (buildGraph_ok_elim hb).choose_spec.2.1

theorem graph_numTensors {p : Problem} {g : Graph} (hb : buildGraph p = .ok g) :
    g.numTensors = p.tensors.length := by
  rw [Graph.numTensors, graph_problem_eq hb]

theorem graph_numOps {p : Problem} {g : Graph} (hb : buildGraph p = .ok g) :
    g.numOps = p.ops.length := by
  rw [Graph.numOps, graph_problem_eq hb]

theorem mem_graphInputTensors {p : Problem} {g : Graph} (hb : buildGraph p = .ok g) (t : Nat) :
    t ∈ g.graphInputTensors ↔ t < p.tensors.length ∧ g.producerOp t = none := by
  obtain ⟨r, hA, hprob, hprod, husers, hpreds, hsuccs, hin, hout⟩ := buildGraph_ok_elim hb
  rw [hin, List.mem_filter, List.mem_range, hprod]
  simp [Option.isNone_iff_eq_none]

theorem mem_graphOutputTensors {p : Problem} {g : Graph} (hb : buildGraph p = .ok g) (t : Nat) :
    t ∈ g.graphOutputTensors ↔ t < p.tensors.length ∧ g.userOps t = [] := by
  obtain ⟨r, hA, hprob, hprod, husers, hpreds, hsuccs, hin, hout⟩ := buildGraph_ok_elim hb
  rw [hout, List.mem_filter, List.mem_range, husers]
  simp [List.isEmpty_iff]

theorem graphInputTensors_sorted {p : Problem} {g : Graph} (hb : buildGraph p = .ok g) :
    g.graphInputTensors.Sorted (· < ·) := by
  obtain ⟨r, hA, hprob, hprod, husers, hpreds, hsuccs, hin, hout⟩ := buildGraph_ok_elim hb
  rw [hin]
  exact List.Pairwise.filter _ (List.pairwise_lt_range _)

theorem graphOutputTensors_sorted {p : Problem} {g : Graph} (hb : buildGraph p = .ok g) :
    g.graphOutputTensors.Sorted (· < ·) := by
  obtain ⟨r, hA, hprob, hprod, husers, hpreds, hsuccs, hin, hout⟩ := buildGraph_ok_elim hb
  rw [hout]
  exact List.Pairwise.filter _ (List.pairwise_lt_range _)

theorem producedCount_eq_zero_iff (p : Problem) (t : Nat) :
    producedCount p t = 0 ↔ ∀ j, t ∉ outputsAt p.ops j := by
  rw [producedCount, List.sum_eq_zero_iff]
  constructor
  · intro hall j hmem
    have hj := outputsAt_lt hmem
    have hz := hall ((p.ops[j]).outputs.count t)
      (List.mem_map.2 ⟨p.ops[j], List.getElem_mem hj, rfl⟩)
    rw [List.count_eq_zero] at hz
    rw [outputsAt, List.getD_eq_getElem _ _ hj] at hmem
    exact hz hmem
  · intro hall x hx
    rcases List.mem_map.1 hx with ⟨op, hop, hcount⟩
    rcases List.mem_iff_getElem.1 hop with ⟨j, hj, hget⟩
    rw [← hcount, List.count_eq_zero]
    intro hmem
    apply hall j
    rw [outputsAt, List.getD_eq_getElem _ _ hj, hget]
    exact hmem

theorem consumedCount_eq_zero_iff (p : Problem) (t : Nat) :
    consumedCount p t = 0 ↔ ∀ j, t ∉ inputsAt p.ops j := by
  rw [consumedCount, List.sum_eq_zero_iff]
  constructor
  · intro hall j hmem
    have hj := inputsAt_lt hmem
    have hz := hall ((p.ops[j]).inputs.count t)
      (List.mem_map.2 ⟨p.ops[j], List.getElem_mem hj, rfl⟩)
    rw [List.count_eq_zero] at hz
    rw [inputsAt, List.getD_eq_getElem _ _ hj] at hmem
    exact hz hmem
  · intro hall x hx
    rcases List.mem_map.1 hx with ⟨op, hop, hcount⟩
    rcases List.mem_iff_getElem.1 hop with ⟨j, hj, hget⟩
    rw [← hcount, List.count_eq_zero]
    intro hmem
    apply hall j
    rw [inputsAt, List.getD_eq_getElem _ _ hj, hget]
    exact hmem

theorem userOps_eq_nil_iff {p : Problem} {g : Graph} (hb : buildGraph p = .ok g) (t : Nat) :
    g.userOps t = [] ↔ ∀ j, t ∉ inputsAt p.ops j := by
  rw [List.eq_nil_iff_forall_not_mem]
  constructor
  · intro hall j hmem
    exact hall j ((userOps_mem_iff hb t j).2 hmem)
  · intro hall x hx
    exact hall x ((userOps_mem_iff hb t x).1 hx)

/-- Claim C1: for every problem description, `Graph::Graph` succeeds exactly
when every tensor index in any operation's input or output list is in range
and no tensor is listed as an output by two distinct operations; on any
violation construction yields an error (and, the construction being
`Except`-valued, no partially built graph is produced). -/
theorem claim_C1 (p : Problem) :
    ((∃ g, buildGraph p = .ok g) ↔ InRange p ∧ SingleProducer p) ∧
      (¬(InRange p ∧ SingleProducer p) → ∃ e, buildGraph p = .error e) := by
  have hiff : (∃ g, buildGraph p = .ok g) ↔ InRange p ∧ SingleProducer p := by
    constructor
    · rintro ⟨g, hg⟩
      obtain ⟨r, hA, -⟩ := buildGraph_ok_elim hg
      have h := (buildAdjacency_ok_iff p.tensors.length p.ops 0
        (fun _ => none) (fun _ => [])).1 ⟨r, hA⟩
      exact ⟨h.1, (singleProducer_iff_noConf p).2 h.2⟩
    · rintro ⟨hr, hsp⟩
      obtain ⟨r, hA⟩ := (buildAdjacency_ok_iff p.tensors.length p.ops 0
        (fun _ => none) (fun _ => [])).2 ⟨hr, (singleProducer_iff_noConf p).1 hsp⟩
      cases hb : buildGraph p with
      | ok g => exact ⟨g, rfl⟩
      | error e =>
        simp only [buildGraph, hA] at hb
        simp at hb
  refine ⟨hiff, ?_⟩
  intro hno
  cases hb : buildGraph p with
  | ok g => exact absurd (hiff.1 ⟨g, hb⟩) hno
  | error e => exact ⟨e, rfl⟩

/-- Claim C3: in every successfully built graph, `p` is a predecessor of `o`
exactly when `o` is a successor of `p`; the predecessor set of `o` consists
exactly of the distinct producers of `o`'s input tensors excluding `o`
itself; and both adjacency lists are deduplicated and strictly ascending. -/
theorem claim_C3 (p : Problem) (g : Graph) (hb : buildGraph p = .ok g) (o q : Nat) :
    (q ∈ g.predecessorOps o ↔ o ∈ g.successorOps q) ∧
      (q ∈ g.predecessorOps o ↔
        q ≠ o ∧ ∃ t ∈ (opAt p o).inputs, g.producerOp t = some q) ∧
      (g.predecessorOps o).Nodup ∧ (g.predecessorOps o).Sorted (· < ·) ∧
      (g.successorOps q).Nodup ∧ (g.successorOps q).Sorted (· < ·) := by
  refine ⟨?_, ?_, ?_, ?_, ?_, ?_⟩
  · rw [successorOps_mem_iff hb q o]
    constructor
    · intro h
      have hlt : o < p.ops.length := by
        rcases (predecessorOps_mem_iff hb o q).1 h with ⟨-, t, ht, -⟩
        exact inputsAt_lt ht
      exact ⟨hlt, h⟩
    · rintro ⟨-, h⟩
      exact h
  · rw [predecessorOps_mem_iff hb o q, opAt_inputs]
  · exact (predecessorOps_sorted hb o).nodup
  · exact predecessorOps_sorted hb o
  · exact (successorOps_sorted hb q).nodup
  · exact successorOps_sorted hb q

/-- Closed instance of claim C3 on the three-operation chain problem. -/
theorem claim_C3_witness :
    (0 ∈ (gOf prChain).predecessorOps 1 ↔ 1 ∈ (gOf prChain).successorOps 0) ∧
      (0 ∈ (gOf prChain).predecessorOps 1 ↔
        0 ≠ 1 ∧ ∃ t ∈ (opAt prChain 1).inputs, (gOf prChain).producerOp t = some 0) :=
  ⟨(claim_C3 prChain (gOf prChain) rfl 1 0).1, (claim_C3 prChain (gOf prChain) rfl 1 0).2.1⟩

/-- Claim C4: in every successfully built graph, a valid tensor has no
producer exactly when it is listed among the graph inputs, and an empty user
list exactly when it is listed among the graph outputs; both boundary lists
are ascending, and a tensor with neither producer nor consumers appears in
both. -/
theorem claim_C4 (p : Problem) (g : Graph) (hb : buildGraph p = .ok g) :
    (∀ t, t < g.numTensors →
      (g.producerOp t = none ↔ t ∈ g.graphInputTensors) ∧
        (g.userOps t = [] ↔ t ∈ g.graphOutputTensors) ∧
        (g.producerOp t = none ∧ g.userOps t = [] →
          t ∈ g.graphInputTensors ∧ t ∈ g.graphOutputTensors)) ∧
      g.graphInputTensors.Sorted (· < ·) ∧ g.graphOutputTensors.Sorted (· < ·) := by
  refine ⟨?_, graphInputTensors_sorted hb, graphOutputTensors_sorted hb⟩
  intro t ht
  rw [graph_numTensors hb] at ht
  refine ⟨?_, ?_, ?_⟩
  · rw [mem_graphInputTensors hb t]
    exact ⟨fun h => ⟨ht, h⟩, fun h => h.2⟩
  · rw [mem_graphOutputTensors hb t]
    exact ⟨fun h => ⟨ht, h⟩, fun h => h.2⟩
  · rintro ⟨h1, h2⟩
    exact ⟨(mem_graphInputTensors hb t).2 ⟨ht, h1⟩, (mem_graphOutputTensors hb t).2 ⟨ht, h2⟩⟩

/-- Closed instance of claim C4 on the problem with an isolated tensor. -/
theorem claim_C4_witness :
    ((gOf prIsolated).producerOp 2 = none ∧ (gOf prIsolated).userOps 2 = [] →
      2 ∈ (gOf prIsolated).graphInputTensors ∧ 2 ∈ (gOf prIsolated).graphOutputTensors) ∧
      (gOf prIsolated).graphInputTensors.Sorted (· < ·) :=
  ⟨((claim_C4 prIsolated (gOf prIsolated) rfl).1 2 (by decide)).2.2,
    (claim_C4 prIsolated (gOf prIsolated) rfl).2.1⟩

/-- Claim C5: with all referenced tensor indices in range, two distinct
operations listing the same output tensor make construction fail with the
invariant error naming one such tensor and both of its producing operations;
absent any cross-operation duplicate (an operation repeating a tensor in its
own output list in particular), construction succeeds. -/
theorem claim_C5 (p : Problem) (hr : InRange p) :
    ((∃ i j t, i ≠ j ∧ t ∈ (opAt p i).outputs ∧ t ∈ (opAt p j).outputs) →
      ∃ t i j, i ≠ j ∧ t ∈ (opAt p i).outputs ∧ t ∈ (opAt p j).outputs ∧
        buildGraph p = .error (multiProducerMsg t i j)) ∧
      (SingleProducer p → ∃ g, buildGraph p = .ok g) := by
  constructor
  · rintro ⟨i, j, t, hne, hti, htj⟩
    have hnsp : ¬SingleProducer p := by
      intro hsp
      rw [opAt_outputs] at hti htj
      exact hsp i (outputsAt_lt hti) j (outputsAt_lt htj) hne t
        (by rwa [opAt_outputs]) (by rwa [opAt_outputs])
    have hnc : ¬NoConf (fun _ => none) 0 p.ops := fun hc =>
      hnsp ((singleProducer_iff_noConf p).2 hc)
    obtain ⟨t', prev, cur, hne', hprev, hcur, herr⟩ :=
      buildAdjacency_error p.tensors.length p.ops 0 (fun _ => none) (fun _ => []) hr hnc
    rcases hprev with habs | ⟨j1, hj1, hm1⟩
    · simp at habs
    obtain ⟨j2, hj2, hm2⟩ := hcur
    refine ⟨t', prev, cur, hne', ?_, ?_, ?_⟩
    · rw [opAt_outputs]
      rwa [show prev = j1 from by omega]
    · rw [opAt_outputs]
      rwa [show cur = j2 from by omega]
    · simp only [buildGraph, herr]
  · intro hsp
    obtain ⟨r, hA⟩ := (buildAdjacency_ok_iff p.tensors.length p.ops 0
      (fun _ => none) (fun _ => [])).2 ⟨hr, (singleProducer_iff_noConf p).1 hsp⟩
    cases hb : buildGraph p with
    | ok g => exact ⟨g, rfl⟩
    | error e =>
      simp only [buildGraph, hA] at hb
      simp at hb

/-- Closed instance of claim C5: the two-producer problem fails with the
invariant error, and the problem whose single operation lists tensor 0 twice
builds successfully. -/
theorem claim_C5_witness :
    (∃ t i j, i ≠ j ∧ t ∈ (opAt prConflict i).outputs ∧ t ∈ (opAt prConflict j).outputs ∧
      buildGraph prConflict = .error (multiProducerMsg t i j)) ∧
      (∃ g, buildGraph prSelfDup = .ok g) :=
  ⟨(claim_C5 prConflict (by unfold InRange; decide)).1 ⟨0, 1, 0, by decide, by decide, by decide⟩,
    (claim_C5 prSelfDup (by unfold InRange; decide)).2
      (by
        intro i hi j hj hne t hti htj
        have h1 : i = 0 := by simpa [prSelfDup, Nat.lt_one_iff] using hi
        have h2 : j = 0 := by simpa [prSelfDup, Nat.lt_one_iff] using hj
        exact hne (by omega))⟩

/-- Claim C9: for every problem whose graph builds, the standalone DOT
writer's boundary classification in `main.cpp` (no producing occurrence /
no consuming occurrence) agrees with the Graph Index's
`IsGraphInputTensor` / `IsGraphOutputTensor` on every valid tensor. -/
theorem claim_C9 (p : Problem) (g : Graph) (hb : buildGraph p = .ok g) (t : Nat)
    (_ht : t < p.tensors.length) :
    wdIsGraphInput p t = isGraphInputTensor g t ∧
      wdIsGraphOutput p t = isGraphOutputTensor g t := by
  constructor
  · rw [Bool.eq_iff_iff, wdIsGraphInput, isGraphInputTensor]
    simp only [beq_iff_eq, Option.isNone_iff_eq_none]
    rw [producedCount_eq_zero_iff, producerOp_none_iff hb]
  · rw [Bool.eq_iff_iff, wdIsGraphOutput, isGraphOutputTensor]
    simp only [beq_iff_eq, List.isEmpty_iff]
    rw [consumedCount_eq_zero_iff, userOps_eq_nil_iff hb]

/-- Closed instance of claim C9 on the one-operation problem. -/
theorem claim_C9_witness :
    wdIsGraphInput prOne 0 = isGraphInputTensor (gOf prOne) 0 ∧
      wdIsGraphOutput prOne 0 = isGraphOutputTensor (gOf prOne) 0 :=
  claim_C9 prOne (gOf prOne) rfl 0 (by decide)

/-- Claim C6: `TopologicalOrder` is deterministic: graphs built identically
from the same problem description yield the identical order (the embedded
algorithm seeds the ready queue with the zero-in-degree operations in
ascending index order and appends newly-ready operations in FIFO order, and
is a pure function of the built graph). -/
theorem claim_C6 (p : Problem) (g1 g2 : Graph) (h1 : buildGraph p = .ok g1)
    (h2 : buildGraph p = .ok g2) : topologicalOrder g1 = topologicalOrder g2 := by
  rw [h1] at h2
  cases h2
  rfl

/-- Closed instance of claim C6 on the three-operation chain problem. -/
theorem claim_C6_witness :
    topologicalOrder (gOf prChain) = topologicalOrder (gOf prChain) :=
  claim_C6 prChain (gOf prChain) (gOf prChain) rfl rfl

theorem escapeDotString_nil : escapeDotString [] = [] := rfl

theorem escapeDotString_cons (c : Char) (rest : List Char) :
    escapeDotString (c :: rest) = escapeDotChar c ++ escapeDotString rest := by
  simp [escapeDotString]

theorem escapeDotString_append (a b : List Char) :
    escapeDotString (a ++ b) = escapeDotString a ++ escapeDotString b := by
  simp [escapeDotString]

theorem unescapeDot_escapeDotString : ∀ s : List Char,
    unescapeDot (escapeDotString s) = some s
  | [] => rfl
  | c :: rest => by
    rw [escapeDotString_cons]
    by_cases h1 : c = '\\'
    · subst h1
      rw [show escapeDotChar '\\' = ['\\', '\\'] from rfl]
      simp [unescapeDot, unescapeDot_escapeDotString rest]
    · by_cases h2 : c = '"'
      · subst h2
        rw [show escapeDotChar '"' = ['\\', '"'] from rfl]
        simp [unescapeDot, unescapeDot_escapeDotString rest]
      · by_cases h3 : c = '\n'
        · subst h3
          rw [show escapeDotChar '\n' = ['\\', 'n'] from rfl]
          simp [unescapeDot, unescapeDot_escapeDotString rest]
        · rw [show escapeDotChar c = [c] from by simp [escapeDotChar, h1, h2, h3]]
          rw [show ([c] : List Char) ++ escapeDotString rest = c :: escapeDotString rest from rfl]
          rw [unescapeDot.eq_def]
          simp [h1, h2, h3, unescapeDot_escapeDotString rest]

theorem noNewlineEscape_escapeDotString : ∀ s : List Char, '\n' ∉ s →
    noNewlineEscape (escapeDotString s) = true
  | [], _ => rfl
  | c :: rest, hn => by
    have hcr : '\n' ∉ rest := fun hc => hn (List.mem_cons_of_mem c hc)
    have hcn : c ≠ '\n' := fun hc => hn (hc ▸ List.mem_cons_self c rest)
    rw [escapeDotString_cons]
    by_cases h1 : c = '\\'
    · subst h1
      rw [show escapeDotChar '\\' = ['\\', '\\'] from rfl]
      simp [noNewlineEscape, noNewlineEscape_escapeDotString rest hcr]
    · by_cases h2 : c = '"'
      · subst h2
        rw [show escapeDotChar '"' = ['\\', '"'] from rfl]
        simp [noNewlineEscape, noNewlineEscape_escapeDotString rest hcr]
      · rw [show escapeDotChar c = [c] from by simp [escapeDotChar, h1, h2, hcn]]
        rw [show ([c] : List Char) ++ escapeDotString rest = c :: escapeDotString rest from rfl]
        rw [noNewlineEscape.eq_def]
        simp [h1, noNewlineEscape_escapeDotString rest hcr]

/-- Claim C7: rendering is idempotent (identically built graphs render to
byte-identical text) and escaped: decoding the escape syntax recovers every
raw string exactly, in particular every operation label, so embedded
backslashes, quotes and newlines only ever appear in escaped form. -/
theorem claim_C7 (p : Problem) (g1 g2 : Graph) (h1 : buildGraph p = .ok g1)
    (h2 : buildGraph p = .ok g2) :
    buildDot g1 = buildDot g2 ∧
      (∀ s : List Char, unescapeDot (escapeDotString s) = some s) ∧
      ∀ i, unescapeDot (escapeDotString (opLabelRaw g1 i)) = some (opLabelRaw g1 i) := by
  rw [h1] at h2
  cases h2
  exact ⟨rfl, unescapeDot_escapeDotString,
    fun i => unescapeDot_escapeDotString (opLabelRaw g1 i)⟩

/-- Closed instance of claim C7 on the one-operation problem. -/
theorem claim_C7_witness :
    buildDot (gOf prOne) = buildDot (gOf prOne) ∧
      (∀ s : List Char, unescapeDot (escapeDotString s) = some s) ∧
      ∀ i, unescapeDot (escapeDotString (opLabelRaw (gOf prOne) i)) =
        some (opLabelRaw (gOf prOne) i) :=
  claim_C7 prOne (gOf prOne) (gOf prOne) rfl rfl

theorem digitChar_ne_newline {d : Nat} (h : d < 10) : digitChar d ≠ '\n' := by
  interval_cases d <;> decide

theorem newline_not_mem_natCharsAux : ∀ (fuel n : Nat), '\n' ∉ natCharsAux fuel n
  | 0, _ => by simp [natCharsAux]
  | fuel + 1, n => by
    rw [natCharsAux]
    by_cases h : n < 10
    · rw [if_pos h]
      intro hmem
      exact digitChar_ne_newline h (List.mem_singleton.1 hmem).symm
    · rw [if_neg h]
      intro hmem
      rcases List.mem_append.1 hmem with hmem | hmem
      · exact newline_not_mem_natCharsAux fuel (n / 10) hmem
      · exact digitChar_ne_newline (Nat.mod_lt _ (by omega)) (List.mem_singleton.1 hmem).symm

theorem newline_not_mem_natChars (n : Nat) : '\n' ∉ natChars n :=
  newline_not_mem_natCharsAux (n + 1) n

theorem newline_not_mem_intChars (i : Int) : '\n' ∉ intChars i := by
  rw [intChars]
  by_cases h : i < 0
  · rw [if_pos h]
    intro hmem
    rcases List.mem_cons.1 hmem with hc | hmem
    · simp at hc
    · exact newline_not_mem_natChars _ hmem
  · rw [if_neg h]
    exact newline_not_mem_natChars _

theorem newline_not_mem_opLabelRaw (g : Graph) (i : Nat)
    (ht : '\n' ∉ (opAt g.problem i).type) : '\n' ∉ opLabelRaw g i := by
  have hA : '\n' ∉ chars "Op[" := by decide
  have hB : '\n' ∉ chars "]" := by decide
  have hC : '\n' ∉ bsn := by decide
  have hD : '\n' ∉ chars "cost=" := by decide
  have hE : '\n' ∉ chars "preds=" := by decide
  have hF : '\n' ∉ chars "succs=" := by decide
  simp [opLabelRaw, List.mem_append, hA, hB, hC, hD, hE, hF, ht,
    newline_not_mem_natChars, newline_not_mem_intChars]

/-- Claim C10 (amended): `BuildDot` escapes the entire label string including
the two-character backslash-n separators it inserted itself, so each intended
line break appears in the emitted label as the three-character sequence
backslash-backslash-n (an escaped backslash followed by a literal `n`); when
the operation type contains no raw newline character, the emitted label
contains no functioning backslash-n newline escape at all. -/
theorem claim_C10 (p : Problem) (g : Graph) (_hb : buildGraph p = .ok g) (i : Nat)
    (_hi : i < g.numOps) :
    (escapeDotString (opLabelRaw g i) =
        escapeDotString (chars "Op[" ++ natChars i ++ chars "]") ++ ['\\', '\\', 'n'] ++
          escapeDotString (opAt g.problem i).type ++ ['\\', '\\', 'n'] ++
          escapeDotString (chars "cost=" ++ intChars (opAt g.problem i).base_cost) ++
          ['\\', '\\', 'n'] ++
          escapeDotString (chars "preds=" ++ natChars (g.predecessorOps i).length) ++
          ['\\', '\\', 'n'] ++
          escapeDotString (chars "succs=" ++ natChars (g.successorOps i).length)) ∧
      ['\\', '\\', 'n'] <:+: escapeDotString (opLabelRaw g i) ∧
      ('\n' ∉ (opAt g.problem i).type →
        noNewlineEscape (escapeDotString (opLabelRaw g i)) = true) := by
  have hbsn : escapeDotString bsn = ['\\', '\\', 'n'] := rfl
  have heq : escapeDotString (opLabelRaw g i) =
      escapeDotString (chars "Op[" ++ natChars i ++ chars "]") ++ ['\\', '\\', 'n'] ++
        escapeDotString (opAt g.problem i).type ++ ['\\', '\\', 'n'] ++
        escapeDotString (chars "cost=" ++ intChars (opAt g.problem i).base_cost) ++
        ['\\', '\\', 'n'] ++
        escapeDotString (chars "preds=" ++ natChars (g.predecessorOps i).length) ++
        ['\\', '\\', 'n'] ++
        escapeDotString (chars "succs=" ++ natChars (g.successorOps i).length) := by
    simp only [opLabelRaw, escapeDotString_append, hbsn, List.append_assoc]
  refine ⟨heq, ?_, ?_⟩
  · rw [heq]
    refine ⟨escapeDotString (chars "Op[" ++ natChars i ++ chars "]"),
      escapeDotString (opAt g.problem i).type ++ ['\\', '\\', 'n'] ++
        escapeDotString (chars "cost=" ++ intChars (opAt g.problem i).base_cost) ++
        ['\\', '\\', 'n'] ++
        escapeDotString (chars "preds=" ++ natChars (g.predecessorOps i).length) ++
        ['\\', '\\', 'n'] ++
        escapeDotString (chars "succs=" ++ natChars (g.successorOps i).length), ?_⟩
    simp [List.append_assoc]
  · intro ht
    exact noNewlineEscape_escapeDotString _ (newline_not_mem_opLabelRaw g i ht)

/-- Closed instance of the amended claim C10 on the one-operation problem. -/
theorem claim_C10_witness :
    ['\\', '\\', 'n'] <:+: escapeDotString (opLabelRaw (gOf prOne) 0) ∧
      noNewlineEscape (escapeDotString (opLabelRaw (gOf prOne) 0)) = true :=
  ⟨(claim_C10 prOne (gOf prOne) rfl 0 (by decide)).2.1,
    (claim_C10 prOne (gOf prOne) rfl 0 (by decide)).2.2 (by decide)⟩

/-- Claim C10 as frozen is false on the code: the sequence standing in for
each line break, backslash-backslash-n, has three characters, not four, so no
four-character such sequence occurs in any emitted label; and an operation
type containing a raw newline makes the escaped label contain a functioning
backslash-n newline escape, refuting the unconditional "never". -/
theorem claim_C10_counterexample :
    (¬∃ s : List Char, s.length = 4 ∧ s = ['\\', '\\', 'n'] ∧
        s <:+: escapeDotString (opLabelRaw (gOf prOne) 0)) ∧
      noNewlineEscape (escapeDotString (opLabelRaw (gOf prNewlineType) 0)) = false := by
  constructor
  · rintro ⟨s, hlen, hs, -⟩
    rw [hs] at hlen
    simp at hlen
  · decide

theorem toInt64_intCast (w : Int) (field : String) (h1 : -(2 ^ 63) ≤ w)
    (h2 : w ≤ 2 ^ 63 - 1) : toInt64 (.num (w : ℚ)) field = .ok w := by
  rw [toInt64]
  simp only [asNumber]
  rw [if_neg, if_pos]
  · simp [Rat.num_intCast]
  · exact Rat.den_intCast w
  · rintro (h | h)
    · have : (w : ℚ) ≥ -(2 ^ 63) := by exact_mod_cast h1
      linarith
    · have : (w : ℚ) ≤ 2 ^ 63 - 1 := by exact_mod_cast h2
      linarith

/-- Claim C8 (amended): `ReadProblemFromJson` checks tensor dimensions only
for being integral numbers within the `int64` range (`ToInt64`); it performs
no sign check on widths or heights, so a document with any in-range integer
width — negative ones included — is accepted and its value stored verbatim in
the returned problem. -/
theorem claim_C8 (w : Int) (h1 : -(2 ^ 63) ≤ w) (h2 : w ≤ 2 ^ 63 - 1) :
    readProblemFromJson (docWithWidth (w : ℚ)) = .ok (problemWithWidth w) := by
  have hw : toInt64Array (.arr [.num (w : ℚ)]) "widths" = .ok [w] := by
    simp only [toInt64Array, asArray, mapE, toInt64_intCast w "widths" h1 h2]
  have hkey : readProblemFromJson (docWithWidth (w : ℚ)) =
      (match toInt64Array (.arr [.num (w : ℚ)]) "widths" with
        | .error e => .error e
        | .ok widths =>
          if widths.length ≠ 1 then .error "widths and heights must have identical length."
          else .ok ⟨zipTensors widths [2], [], 0, 0, 1, 1⟩) := rfl
  rw [hkey, hw]
  simp [zipTensors, problemWithWidth]

/-- Closed instance of the amended claim C8 at width `-3`. -/
theorem claim_C8_witness :
    readProblemFromJson (docWithWidth ((-3 : Int) : ℚ)) = .ok (problemWithWidth (-3)) :=
  claim_C8 (-3) (by norm_num) (by norm_num)

/-- Claim C8 as frozen is false on the code: the document whose single tensor
has width `-3` is accepted by `ReadProblemFromJson`, and the returned problem
contains a tensor of negative width. -/
theorem claim_C8_counterexample :
    ∃ pr, readProblemFromJson (docWithWidth (-3)) = .ok pr ∧
      ∃ t ∈ pr.tensors, t.width < 0 :=
  ⟨problemWithWidth (-3), rfl, ⟨-3, 2⟩, by decide, by decide⟩

theorem nodup_lt_length_le {l : List Nat} {M : Nat} (hnd : l.Nodup) (hlt : ∀ x ∈ l, x < M) :
    l.length ≤ M := by
  have h1 : l.toFinset.card = l.length := List.toFinset_card_of_nodup hnd
  have h2 : l.toFinset ⊆ Finset.range M := by
    intro x hx
    rw [List.mem_toFinset] at hx
    rw [Finset.mem_range]
    exact hlt x hx
  have := Finset.card_le_card h2
  rw [h1, Finset.card_range] at this
  exact this

theorem two_le_length_of_mem_ne {l : List Nat} {a b : Nat} (ha : a ∈ l) (hb : b ∈ l)
    (hne : a ≠ b) : 2 ≤ l.length := by
  have h1 : ({a, b} : Finset Nat) ⊆ l.toFinset := by
    intro x hx
    rw [List.mem_toFinset]
    rcases Finset.mem_insert.1 hx with hx | hx
    · exact hx ▸ ha
    · exact (Finset.mem_singleton.1 hx) ▸ hb
  have h2 : ({a, b} : Finset Nat).card = 2 := Finset.card_pair hne
  have h3 := Finset.card_le_card h1
  rw [h2] at h3
  exact h3.trans (List.toFinset_card_le l)

theorem decSize_eq_zero_iff {x : Nat} (h : x < u64) : decSize x = 0 ↔ x = 1 := by
  rw [decSize]
  rw [u64] at *
  omega

theorem decSize_eq_sub_one {x : Nat} (h0 : 0 < x) (h : x < u64) : decSize x = x - 1 := by
  rw [decSize]
  rw [u64] at *
  omega

theorem kahnFold_eq : ∀ (l : List Nat), l.Nodup → ∀ (ind : Nat → Nat) (acc : List Nat),
    l.foldl (fun (st : (Nat → Nat) × List Nat) (s : Nat) =>
      ((fun u => if u = s then decSize (st.1 s) else st.1 u),
        if decSize (st.1 s) = 0 then st.2 ++ [s] else st.2)) (ind, acc) =
      ((fun u => if u ∈ l then decSize (ind u) else ind u),
        acc ++ l.filter (fun s => decide (decSize (ind s) = 0)))
  | [], _, ind, acc => by
    refine Prod.ext ?_ ?_
    · funext u
      simp
    · simp
  | s :: rest, hnd, ind, acc => by
    rw [List.foldl_cons, kahnFold_eq rest hnd.of_cons]
    have hs : s ∉ rest := (List.nodup_cons.1 hnd).1
    refine Prod.ext ?_ ?_
    · funext u
      simp only
      by_cases hu : u = s
      · subst hu
        rw [if_neg hs, if_pos rfl, if_pos (List.mem_cons_self u rest)]
      · by_cases hur : u ∈ rest
        · rw [if_pos hur, if_neg hu, if_pos (List.mem_cons_of_mem s hur)]
        · rw [if_neg hur, if_neg hu, if_neg (by simp [List.mem_cons, hu, hur])]
    · simp only
      have hcong : rest.filter (fun x =>
          decide (decSize (if x = s then decSize (ind s) else ind x) = 0)) =
          rest.filter (fun x => decide (decSize (ind x) = 0)) := by
        apply List.filter_congr
        intro x hx
        rw [if_neg (by rintro rfl; exact hs hx)]
      rw [hcong, List.filter_cons]
      by_cases hd : decSize (ind s) = 0
      · simp [hd]
      · simp [hd]

theorem kahnStep_eq (g : Graph) (indeg : Nat → Nat) (queue : List Nat) (q : Nat)
    (hnd : (g.successorOps q).Nodup) :
    kahnStep g indeg queue q =
      ((fun u => if u ∈ g.successorOps q then decSize (indeg u) else indeg u),
        queue ++ (g.successorOps q).filter (fun s => decide (decSize (indeg s) = 0))) := by
  rw [kahnStep]
  exact kahnFold_eq _ hnd indeg queue

theorem length_eq_one_of_unique_mem {l : List Nat} {a : Nat} (hnd : l.Nodup) (ha : a ∈ l)
    (huniq : ∀ b ∈ l, b = a) : l.length = 1 := by
  cases l with
  | nil => simp at ha
  | cons x xs =>
    have hx : x = a := huniq x (List.mem_cons_self x xs)
    cases xs with
    | nil => rfl
    | cons y ys =>
      have hy : y = a := huniq y (by simp)
      rw [List.nodup_cons] at hnd
      exact absurd (show x ∈ y :: ys from (hx.trans hy.symm) ▸ List.mem_cons_self y ys) hnd.1

theorem kahnInv_step (g : Graph) (M : Nat) (hwf : KahnWF g M) (indeg : Nat → Nat)
    (q : Nat) (rest order : List Nat) (hinv : KahnInv g M indeg (q :: rest) order) :
    KahnInv g M (kahnStep g indeg rest q).1 (kahnStep g indeg rest q).2 (order ++ [q]) := by
  obtain ⟨hM, hpnd, hpq, hpout, hsnd, hso⟩ := hwf
  obtain ⟨hond, hqnd, holt, hqlt, hdisj, hqueue, hindeg, hprefix⟩ := hinv
  rw [kahnStep_eq g indeg rest q (hsnd q)]
  simp only
  have hqM : q < M := hqlt q (List.mem_cons_self q rest)
  have hqnotord : q ∉ order := hdisj q (List.mem_cons_self q rest)
  have hqready : ∀ x ∈ g.predecessorOps q, x ∈ order :=
    ((hqueue q hqM).1 (List.mem_cons_self q rest)).2
  have hrestnd : rest.Nodup := hqnd.of_cons
  have hqrest : q ∉ rest := (List.nodup_cons.1 hqnd).1
  have hclosed : ∀ s ∈ order, ∀ x ∈ g.predecessorOps s, x ∈ order := by
    intro s hs x hx
    rcases List.mem_iff_getElem.1 hs with ⟨k, hk, hget⟩
    have hmem := hprefix ⟨k, hk⟩ x (by rw [List.get_eq_getElem]; simp only [hget]; exact hx)
    exact List.take_subset k order hmem
  have hindlt : ∀ o, indeg o < u64 := by
    intro o
    rw [hindeg o]
    calc ((g.predecessorOps o).filter (fun x => decide (x ∉ order))).length
        ≤ (g.predecessorOps o).length := List.length_filter_le _ _
      _ ≤ M := nodup_lt_length_le (hpnd o) (fun x hx => (hpq o x hx).1)
      _ < u64 := hM
  have hSmem : ∀ s, s ∈ g.successorOps q ↔ s < M ∧ q ∈ g.predecessorOps s := hso q
  have hqfilter : ∀ o, q ∈ g.predecessorOps o →
      q ∈ (g.predecessorOps o).filter (fun x => decide (x ∉ order)) := by
    intro o hq
    rw [List.mem_filter]
    exact ⟨hq, by simpa using hqnotord⟩
  have hindpos : ∀ s ∈ g.successorOps q, 0 < indeg s := by
    intro s hsS
    rw [hindeg s]
    exact List.length_pos_of_mem (hqfilter s ((hSmem s).1 hsS).2)
  have hpushed_mem : ∀ s, s ∈ (g.successorOps q).filter
      (fun s => decide (decSize (indeg s) = 0)) ↔ s ∈ g.successorOps q ∧ indeg s = 1 := by
    intro s
    rw [List.mem_filter]
    constructor
    · rintro ⟨h1, h2⟩
      exact ⟨h1, (decSize_eq_zero_iff (hindlt s)).1 (of_decide_eq_true h2)⟩
    · rintro ⟨h1, h2⟩
      exact ⟨h1, decide_eq_true ((decSize_eq_zero_iff (hindlt s)).2 h2)⟩
  have hpushed_props : ∀ s ∈ (g.successorOps q).filter
      (fun s => decide (decSize (indeg s) = 0)),
      s < M ∧ q ∈ g.predecessorOps s ∧ s ∉ order ∧ s ≠ q ∧ s ∉ rest := by
    intro s hsp
    obtain ⟨hsS, hs1⟩ := (hpushed_mem s).1 hsp
    obtain ⟨hsM, hqs⟩ := (hSmem s).1 hsS
    have hsneq : s ≠ q := Ne.symm (hpq s q hqs).2
    have hsnotord : s ∉ order := fun hc => hqnotord (hclosed s hc q hqs)
    have hsnotrest : s ∉ rest := by
      intro hc
      have hready := ((hqueue s hsM).1 (List.mem_cons_of_mem q hc)).2
      rw [hindeg s] at hs1
      rw [List.filter_eq_nil_iff.2 (fun a ha => by simpa using hready a ha)] at hs1
      simp at hs1
    exact ⟨hsM, hqs, hsnotord, hsneq, hsnotrest⟩
  have hsplit : ∀ o, (g.predecessorOps o).filter (fun x => decide (x ∉ order ++ [q])) =
      ((g.predecessorOps o).filter (fun x => decide (x ∉ order))).filter
        (fun x => x != q) := by
    intro o
    rw [List.filter_filter]
    apply List.filter_congr
    intro x _
    by_cases h1 : x = q
    · subst h1
      simp [List.mem_append]
    · by_cases h2 : x ∈ order
      · simp [List.mem_append, h1, h2]
      · simp [List.mem_append, h1, h2]
  have hnotS : ∀ o, o ∉ g.successorOps q → q ∉ g.predecessorOps o := by
    intro o hoS hq
    rcases Nat.lt_or_ge o M with hoM | hoM
    · exact hoS ((hSmem o).2 ⟨hoM, hq⟩)
    · rw [hpout o hoM] at hq
      simp at hq
  refine ⟨?_, ?_, ?_, ?_, ?_, ?_, ?_, ?_⟩
  · rw [List.nodup_append]
    exact ⟨hond, List.nodup_singleton q, fun a ha hb =>
      hqnotord ((List.mem_singleton.1 hb) ▸ ha)⟩
  · rw [List.nodup_append]
    refine ⟨hrestnd, (hsnd q).filter _, ?_⟩
    intro a ha hb
    exact (hpushed_props a hb).2.2.2.2 ha
  · intro x hx
    rcases List.mem_append.1 hx with hx | hx
    · exact holt x hx
    · exact (List.mem_singleton.1 hx) ▸ hqM
  · intro x hx
    rcases List.mem_append.1 hx with hx | hx
    · exact hqlt x (List.mem_cons_of_mem q hx)
    · exact (hpushed_props x hx).1
  · intro x hx hmem
    rcases List.mem_append.1 hmem with hmem | hmem
    · rcases List.mem_append.1 hx with hx | hx
      · exact hdisj x (List.mem_cons_of_mem q hx) hmem
      · exact (hpushed_props x hx).2.2.1 hmem
    · have hxq : x = q := List.mem_singleton.1 hmem
      rcases List.mem_append.1 hx with hx | hx
      · exact hqrest (hxq ▸ hx)
      · exact (hpushed_props x hx).2.2.2.1 hxq
  · intro o hoM
    constructor
    · intro hmem
      rcases List.mem_append.1 hmem with hmem | hmem
      · obtain ⟨hno, hall⟩ := (hqueue o hoM).1 (List.mem_cons_of_mem q hmem)
        have hoq : o ≠ q := fun hc => hqrest (hc ▸ hmem)
        refine ⟨?_, fun x hx => List.mem_append.2 (Or.inl (hall x hx))⟩
        intro hc
        rcases List.mem_append.1 hc with hc | hc
        · exact hno hc
        · exact hoq (List.mem_singleton.1 hc)
      · obtain ⟨hoM', hqo, hno, hoq, -⟩ := hpushed_props o hmem
        have ho1 : indeg o = 1 := ((hpushed_mem o).1 hmem).2
        refine ⟨?_, ?_⟩
        · intro hc
          rcases List.mem_append.1 hc with hc | hc
          · exact hno hc
          · exact hoq (List.mem_singleton.1 hc)
        · intro x hx
          by_cases hxq : x = q
          · exact List.mem_append.2 (Or.inr (hxq ▸ List.mem_singleton_self q))
          · by_cases hxo : x ∈ order
            · exact List.mem_append.2 (Or.inl hxo)
            · exfalso
              have hxf : x ∈ (g.predecessorOps o).filter (fun y => decide (y ∉ order)) :=
                List.mem_filter.2 ⟨hx, by simpa using hxo⟩
              have h2 := two_le_length_of_mem_ne hxf (hqfilter o hqo) hxq
              rw [hindeg o] at ho1
              omega
    · rintro ⟨hno, hall⟩
      have hoq : o ≠ q := fun hc =>
        hno (List.mem_append.2 (Or.inr (hc ▸ List.mem_singleton_self q)))
      have hnord : o ∉ order := fun hc => hno (List.mem_append.2 (Or.inl hc))
      by_cases hqp : q ∈ g.predecessorOps o
      · have hoS : o ∈ g.successorOps q := (hSmem o).2 ⟨hoM, hqp⟩
        have huniq : ∀ b ∈ (g.predecessorOps o).filter (fun y => decide (y ∉ order)),
            b = q := by
          intro b hb
          obtain ⟨hb1, hb2⟩ := List.mem_filter.1 hb
          have hb3 : b ∉ order := of_decide_eq_true hb2
          rcases List.mem_append.1 (hall b hb1) with hc | hc
          · exact absurd hc hb3
          · exact List.mem_singleton.1 hc
        have hlen1 : indeg o = 1 := by
          rw [hindeg o]
          exact length_eq_one_of_unique_mem ((hpnd o).filter _) (hqfilter o hqp) huniq
        exact List.mem_append.2 (Or.inr ((hpushed_mem o).2 ⟨hoS, hlen1⟩))
      · have hallord : ∀ x ∈ g.predecessorOps o, x ∈ order := by
          intro x hx
          rcases List.mem_append.1 (hall x hx) with hc | hc
          · exact hc
          · exact absurd ((List.mem_singleton.1 hc) ▸ hx) hqp
        have : o ∈ q :: rest := (hqueue o hoM).2 ⟨hnord, hallord⟩
        rcases List.mem_cons.1 this with hc | hc
        · exact absurd hc hoq
        · exact List.mem_append.2 (Or.inl hc)
  · intro o
    rw [hsplit o]
    show (if o ∈ g.successorOps q then decSize (indeg o) else indeg o) = _
    by_cases hoS : o ∈ g.successorOps q
    · rw [if_pos hoS]
      obtain ⟨hoM, hqo⟩ := (hSmem o).1 hoS
      have hmnd : ((g.predecessorOps o).filter (fun x => decide (x ∉ order))).Nodup :=
        (hpnd o).filter _
      rw [← List.Nodup.erase_eq_filter hmnd q,
        List.length_erase_of_mem (hqfilter o hqo),
        decSize_eq_sub_one (hindpos o hoS) (hindlt o), hindeg o]
    · rw [if_neg hoS]
      have hqno : q ∉ g.predecessorOps o := hnotS o hoS
      rw [List.filter_eq_self.2 ?_, hindeg o]
      intro a ha
      have haq : a ≠ q := by
        rintro rfl
        exact hqno (List.mem_filter.1 ha).1
      simpa using haq
  · intro k x hx
    have hklen : k.val < order.length + 1 := by
      have := k.isLt
      simpa using this
    rcases Nat.lt_or_ge k.val order.length with hk | hk
    · have hget : (order ++ [q]).get k = order.get ⟨k.val, hk⟩ := by
        rw [List.get_eq_getElem, List.get_eq_getElem]
        exact List.getElem_append_left hk
      rw [hget] at hx
      have hmem := hprefix ⟨k.val, hk⟩ x hx
      rw [List.take_append_eq_append_take, Nat.sub_eq_zero_of_le (le_of_lt hk)]
      simp only [List.take_zero, List.append_nil]
      exact hmem
    · have hkeq : k.val = order.length := by omega
      have hget : (order ++ [q]).get k = q := by
        rw [List.get_eq_getElem]
        rw [List.getElem_append_right (by omega)]
        simp [hkeq]
      rw [hget] at hx
      rw [hkeq, List.take_left]
      exact hqready x hx

theorem kahnLoop_spec (g : Graph) (M : Nat) (hwf : KahnWF g M) :
    ∀ (fuel : Nat) (indeg : Nat → Nat) (queue order : List Nat),
      KahnInv g M indeg queue order → M < order.length + fuel →
      ∃ indeg', KahnInv g M indeg' [] (kahnLoop g fuel indeg queue order)
  | 0, indeg, queue, order, hinv, hfuel => by
    exfalso
    have := nodup_lt_length_le hinv.1 hinv.2.2.1
    omega
  | fuel + 1, indeg, [], order, hinv, _ => ⟨indeg, hinv⟩
  | fuel + 1, indeg, q :: rest, order, hinv, hfuel => by
    have hstep := kahnInv_step g M hwf indeg q rest order hinv
    have hred : kahnLoop g (fuel + 1) indeg (q :: rest) order =
        kahnLoop g fuel (kahnStep g indeg rest q).1 (kahnStep g indeg rest q).2
          (order ++ [q]) := rfl
    rw [hred]
    exact kahnLoop_spec g M hwf fuel _ _ _ hstep
      (by simp only [List.length_append, List.length_singleton]; omega)

theorem kahnInv_init (g : Graph) (M : Nat) (hwf : KahnWF g M) (hMeq : M = g.numOps) :
    KahnInv g M (fun o => (g.predecessorOps o).length)
      ((List.range g.numOps).filter (fun o => (g.predecessorOps o).length == 0)) [] := by
  refine ⟨List.nodup_nil, List.Nodup.filter _ (List.nodup_range _), by simp, ?_, by simp,
    ?_, ?_, ?_⟩
  · intro x hx
    obtain ⟨hx1, -⟩ := List.mem_filter.1 hx
    rw [hMeq]
    exact List.mem_range.1 hx1
  · intro o hoM
    rw [List.mem_filter, List.mem_range]
    simp only [beq_iff_eq, List.length_eq_zero, List.not_mem_nil, not_false_eq_true,
      true_and]
    constructor
    · rintro ⟨-, h⟩
      rw [h]
      simp
    · rintro h
      refine ⟨by omega, ?_⟩
      rw [List.eq_nil_iff_forall_not_mem]
      intro a ha
      exact h a ha
  · intro o
    rw [List.filter_eq_self.2 (fun a _ => by simp)]
  · intro k
    exact k.elim0

theorem kahnWF_of_build {p : Problem} {g : Graph} (hb : buildGraph p = .ok g)
    (hM : p.ops.length < u64) : KahnWF g g.numOps := by
  have hnum : g.numOps = p.ops.length := graph_numOps hb
  refine ⟨by rw [hnum]; exact hM, fun o => (predecessorOps_sorted hb o).nodup, ?_, ?_,
    fun q => (successorOps_sorted hb q).nodup, ?_⟩
  · intro o q hq
    have h := predecessorOps_lt hb hq
    exact ⟨by rw [hnum]; exact h.1, h.2⟩
  · intro o ho
    exact predecessorOps_out hb (by rw [hnum] at ho; exact ho)
  · intro q o
    rw [successorOps_mem_iff hb q o, hnum]

theorem kahnFinal_complete {g : Graph} {M : Nat} {indeg : Nat → Nat} {order : List Nat}
    (hwf : KahnWF g M) (hinv : KahnInv g M indeg [] order) (hacyc : Acyclic g) :
    ∀ o, o < M → o ∈ order := by
  obtain ⟨hM, hpnd, hpq, hpout, hsnd, hso⟩ := hwf
  obtain ⟨hond, -, holt, -, -, hqueue, -, hprefix⟩ := hinv
  have hlift : ∀ (x y : Fin M),
      Relation.TransGen (fun a b : Fin M => precedes g a.val b.val) x y →
      Relation.TransGen (precedes g) x.val y.val := by
    intro x y h
    induction h with
    | single h => exact Relation.TransGen.single h
    | tail _ h2 ih => exact Relation.TransGen.tail ih h2
  have hirr : ∀ a : Fin M,
      ¬ Relation.TransGen (fun a b : Fin M => precedes g a.val b.val) a a := by
    intro a ha
    exact hacyc a.val (hlift a a ha)
  have hwfr : WellFounded (fun a b : Fin M => precedes g a.val b.val) := by
    have h1 : IsTrans (Fin M)
        (Relation.TransGen (fun a b : Fin M => precedes g a.val b.val)) :=
      ⟨fun _ _ _ hab hbc => Relation.TransGen.trans hab hbc⟩
    have h2 : IsIrrefl (Fin M)
        (Relation.TransGen (fun a b : Fin M => precedes g a.val b.val)) := ⟨hirr⟩
    exact Subrelation.wf
      (fun {x y} h => (Relation.TransGen.single h :
        Relation.TransGen (fun a b : Fin M => precedes g a.val b.val) x y))
      (Finite.wellFounded_of_trans_of_irrefl
        (Relation.TransGen (fun a b : Fin M => precedes g a.val b.val)))
  have hmain : ∀ a : Fin M, a.val ∈ order := by
    intro a
    refine @WellFounded.induction _ _ hwfr (fun x => x.val ∈ order) a ?_
    intro x ih
    by_contra hx
    have h6 := hqueue x.val x.isLt
    have hno : ¬(x.val ∉ order ∧ ∀ q ∈ g.predecessorOps x.val, q ∈ order) := by
      rw [← h6]
      simp
    have hnq : ¬∀ q ∈ g.predecessorOps x.val, q ∈ order := fun hb => hno ⟨hx, hb⟩
    push_neg at hnq
    obtain ⟨qq, hq1, hq2⟩ := hnq
    exact hq2 (ih ⟨qq, (hpq _ _ hq1).1⟩ hq1)
  intro o hoM
  exact hmain ⟨o, hoM⟩

theorem kahnFinal_cycle {g : Graph} {M : Nat} {indeg : Nat → Nat} {order : List Nat}
    (hwf : KahnWF g M) (hinv : KahnInv g M indeg [] order) (c : Nat)
    (hc : Relation.TransGen (precedes g) c c) : order.length ≠ M := by
  intro hlen
  obtain ⟨hM, hpnd, hpq, hpout, hsnd, hso⟩ := hwf
  obtain ⟨hond, -, holt, -, -, hqueue, -, hprefix⟩ := hinv
  have hall : ∀ o, o < M → o ∈ order := by
    intro o hoM
    have hsub : order ⊆ List.range M := fun x hx => List.mem_range.2 (holt x hx)
    have hperm : order.Perm (List.range M) :=
      (List.subperm_of_subset hond hsub).perm_of_length_le (by simp [hlen])
    exact hperm.mem_iff.2 (List.mem_range.2 hoM)
  have hedge : ∀ a b, precedes g a b → b ∈ order →
      a ∈ order ∧ List.indexOf a order < List.indexOf b order := by
    intro a b hab hb
    have hib : List.indexOf b order < order.length := List.indexOf_lt_length.2 hb
    have hgetb : order.get ⟨List.indexOf b order, hib⟩ = b := by
      rw [List.get_eq_getElem]
      exact List.getElem_indexOf hib
    have hmem0 := hprefix ⟨List.indexOf b order, hib⟩ a (by rw [hgetb]; exact hab)
    have hmem : a ∈ List.take (List.indexOf b order) order := hmem0
    have haord : a ∈ order := List.take_subset _ order hmem
    rcases List.mem_iff_getElem.1 hmem with ⟨k, hk, hkeq⟩
    have hk' : k < List.indexOf b order := by
      rw [List.length_take] at hk
      omega
    rw [List.getElem_take] at hkeq
    have hia : List.indexOf a order < order.length := List.indexOf_lt_length.2 haord
    have hgeta : order[List.indexOf a order] = a := List.getElem_indexOf hia
    have hka : k = List.indexOf a order :=
      (hond.getElem_inj_iff).1 (by rw [hkeq, hgeta])
    exact ⟨haord, by rw [← hka]; exact hk'⟩
  have hchain : ∀ a b, Relation.TransGen (precedes g) a b → b ∈ order →
      a ∈ order ∧ List.indexOf a order < List.indexOf b order := by
    intro a b h
    induction h with
    | single h => exact fun hb => hedge _ _ h hb
    | tail _ h2 ih =>
      intro hb
      obtain ⟨hb0, hlt⟩ := hedge _ _ h2 hb
      obtain ⟨ha, hlt'⟩ := ih hb0
      exact ⟨ha, hlt'.trans hlt⟩
  have hcM : c < M := by
    cases hc with
    | single h => exact absurd rfl (hpq c c h).2
    | tail _ h2 =>
      by_contra hge
      have hemp : g.predecessorOps c = [] := hpout c (by omega)
      have h2' : _ ∈ g.predecessorOps c := h2
      rw [hemp] at h2'
      exact List.not_mem_nil _ h2'
  have := hchain c c hc (hall c hcM)
  omega

/-- Claim C2: on every successfully built graph, when the predecessor
relation is acyclic `TopologicalOrder` returns a permutation of all operation
indices in which every operation appears strictly after each of its
predecessors; when the relation has a cycle it fails with the "not a DAG"
topology error and returns no order. -/
theorem claim_C2 (p : Problem) (g : Graph) (hb : buildGraph p = .ok g)
    (hM : p.ops.length < u64) :
    (Acyclic g → ∃ order, topologicalOrder g = .ok order ∧
        order.Perm (List.range g.numOps) ∧
        ∀ (i j : Nat) (hi : i < order.length) (hj : j < order.length),
          order.get ⟨j, hj⟩ ∈ g.predecessorOps (order.get ⟨i, hi⟩) → j < i) ∧
      ((∃ o, Relation.TransGen (precedes g) o o) →
        topologicalOrder g = .error notADagMsg) := by
  have hwf := kahnWF_of_build hb hM
  have hinit := kahnInv_init g g.numOps hwf rfl
  obtain ⟨indeg', hfin⟩ := kahnLoop_spec g g.numOps hwf (g.numOps + 1)
    (fun o => (g.predecessorOps o).length)
    ((List.range g.numOps).filter (fun o => (g.predecessorOps o).length == 0)) [] hinit
    (by simp)
  have htopo : topologicalOrder g =
      (if (kahnLoop g (g.numOps + 1) (fun o => (g.predecessorOps o).length)
          ((List.range g.numOps).filter (fun o => (g.predecessorOps o).length == 0))
          []).length = g.numOps then
        .ok (kahnLoop g (g.numOps + 1) (fun o => (g.predecessorOps o).length)
          ((List.range g.numOps).filter (fun o => (g.predecessorOps o).length == 0)) [])
      else .error notADagMsg) := rfl
  constructor
  · intro hacyc
    have hall := kahnFinal_complete hwf hfin hacyc
    have hsub : (kahnLoop g (g.numOps + 1) (fun o => (g.predecessorOps o).length)
        ((List.range g.numOps).filter (fun o => (g.predecessorOps o).length == 0)) []) ⊆
        List.range g.numOps := fun x hx => List.mem_range.2 (hfin.2.2.1 x hx)
    have hrsub : List.range g.numOps ⊆
        kahnLoop g (g.numOps + 1) (fun o => (g.predecessorOps o).length)
          ((List.range g.numOps).filter (fun o => (g.predecessorOps o).length == 0)) [] :=
      fun x hx => hall x (List.mem_range.1 hx)
    have hperm : (kahnLoop g (g.numOps + 1) (fun o => (g.predecessorOps o).length)
        ((List.range g.numOps).filter (fun o => (g.predecessorOps o).length == 0))
        []).Perm (List.range g.numOps) := by
      refine (List.subperm_of_subset hfin.1 hsub).perm_of_length_le ?_
      have := (List.subperm_of_subset (List.nodup_range _) hrsub).length_le
      simpa using this
    have hlen : (kahnLoop g (g.numOps + 1) (fun o => (g.predecessorOps o).length)
        ((List.range g.numOps).filter (fun o => (g.predecessorOps o).length == 0))
        []).length = g.numOps := by
      have := hperm.length_eq
      simpa using this
    refine ⟨_, by rw [htopo, if_pos hlen], hperm, ?_⟩
    intro i j hi hj hmem
    have hpre0 := hfin.2.2.2.2.2.2.2 ⟨i, hi⟩ _ hmem
    have hpre : kahnLoop g (g.numOps + 1) (fun o => (g.predecessorOps o).length)
        ((List.range g.numOps).filter (fun o => (g.predecessorOps o).length == 0))
        [] |>.take i |>.Mem ((kahnLoop g (g.numOps + 1)
          (fun o => (g.predecessorOps o).length)
          ((List.range g.numOps).filter (fun o => (g.predecessorOps o).length == 0))
          []).get ⟨j, hj⟩) := hpre0
    rcases List.mem_iff_getElem.1 hpre with ⟨k, hk, hkeq⟩
    have hk' : k < i := by
      rw [List.length_take] at hk
      omega
    rw [List.getElem_take] at hkeq
    rw [List.get_eq_getElem] at hkeq
    have hkj : k = j := (hfin.1.getElem_inj_iff).1 hkeq
    omega
  · rintro ⟨c, hc⟩
    have hne := kahnFinal_cycle hwf hfin c hc
    rw [htopo, if_neg hne]

/-- Closed instance of claim C2: the three-operation chain sorts successfully
into a permutation respecting predecessors, and the two-cycle problem (which
builds successfully) makes `TopologicalOrder` fail with the topology
error. -/
theorem claim_C2_witness :
    (∃ order, topologicalOrder (gOf prChain) = .ok order ∧
        order.Perm (List.range (gOf prChain).numOps) ∧
        ∀ (i j : Nat) (hi : i < order.length) (hj : j < order.length),
          order.get ⟨j, hj⟩ ∈ (gOf prChain).predecessorOps (order.get ⟨i, hi⟩) → j < i) ∧
      topologicalOrder (gOf prCycle) = .error notADagMsg := by
  constructor
  · refine (claim_C2 prChain (gOf prChain) rfl (by decide)).1 ?_
    intro o h
    have herr := (claim_C2 prChain (gOf prChain) rfl (by decide)).2 ⟨o, h⟩
    have hok : topologicalOrder (gOf prChain) = .ok [0, 1, 2] := rfl
    rw [hok] at herr
    exact absurd herr (by simp)
  · refine (claim_C2 prCycle (gOf prCycle) rfl (by decide)).2 ⟨0, ?_⟩
    have h01 : precedes (gOf prCycle) 0 1 := by
      show 0 ∈ (gOf prCycle).predecessorOps 1
      decide
    have h10 : precedes (gOf prCycle) 1 0 := by
      show 1 ∈ (gOf prCycle).predecessorOps 0
      decide
    exact Relation.TransGen.tail (Relation.TransGen.single h01) h10
